import Mathlib

/-!
Verification of the symbolic-graph core of `src/symbol/symbol.cc` (mxnet Symbol).

The C++ code manipulates a shared-pointer DAG of `Symbol::Node`s.  The shallow
embedding models the heap explicitly: a `Store` is the list of all allocated
nodes, addressed by their index (`Nat` node ids); a `shared_ptr<Node>` becomes a
node id, and a `DataEntry` is a (node id, output index) pair.  Mutating member
functions become functions `Store → ... → Option ComposeError × Store`: the
returned store is the heap after the call, including partial mutations that the
C++ code performed before a failing `CHECK` (dmlc's `LOG(FATAL)` throws, so
mutations made before the throw stay visible in the heap).
-/

/-- External operator contract (`OperatorProperty`): a pure value carrying the
display name, declared argument names, declared return names, and the visible
return count.  `Copy()` of an operator clones it, which for a pure value is the
identity. -/
structure Op where
  typeString : String
  arguments : List String
  returns : List String
  numVisibleReturns : Nat
deriving DecidableEq

instance : Inhabited Op := ⟨⟨"", [], [], 0⟩⟩

/-- `Symbol::DataEntry`: a shared reference to a node plus an output index. -/
structure DataEntry where
  source : Nat
  index : Nat
deriving DecidableEq

instance : Inhabited DataEntry := ⟨⟨0, 0⟩⟩

/-- `Symbol::Node`: backward source link, optional operator, name, input edges. -/
structure Node where
  backward_source_node : Option Nat
  op : Option Op
  name : String
  inputs : List DataEntry
deriving DecidableEq

instance : Inhabited Node := ⟨⟨none, none, "", []⟩⟩

/-- `Node::is_atomic`: `inputs.size() == 0 && op != nullptr`. -/
def Node.is_atomic (n : Node) : Bool :=
  n.inputs.isEmpty && n.op.isSome

/-- `Node::is_variable`: `op == nullptr && !backward_source_node`. -/
def Node.is_variable (n : Node) : Bool :=
  n.op.isNone && n.backward_source_node.isNone

/-- The heap of allocated nodes; node ids are indices into `nodes`. -/
structure Store where
  nodes : List Node
deriving DecidableEq

/-- A `Symbol`: an ordered list of heads (output references). -/
structure MXSymbol where
  heads : List DataEntry
deriving DecidableEq

instance : Inhabited MXSymbol := ⟨⟨[]⟩⟩

/-- `Symbol::NumReturns()` is the number of heads. -/
def MXSymbol.numReturns (sym : MXSymbol) : Nat := sym.heads.length

/-- Replace the node at `id` (no-op when `id` is unallocated, which cannot
happen on the paths the C++ code can reach with valid shared pointers). -/
def Store.modifyNode (s : Store) (id : Nat) (f : Node → Node) : Store :=
  match s.nodes[id]? with
  | some n => ⟨s.nodes.set id (f n)⟩
  | none => s

def Store.setName (s : Store) (id : Nat) (nm : String) : Store :=
  s.modifyNode id (fun n => { n with name := nm })

def Store.setInputs (s : Store) (id : Nat) (ins : List DataEntry) : Store :=
  s.modifyNode id (fun n => { n with inputs := ins })

def Store.setInput (s : Store) (id : Nat) (i : Nat) (e : DataEntry) : Store :=
  s.modifyNode id (fun n => { n with inputs := n.inputs.set i e })

/-- `Symbol::is_atomic()`: one head whose node is atomic. -/
def symIsAtomic (s : Store) (sym : MXSymbol) : Bool :=
  match sym.heads with
  | [h] =>
    match s.nodes[h.source]? with
    | some n => n.is_atomic
    | none => false
  | _ => false

/-- Every input edge of every allocated node points at an allocated node. -/
def Store.WF (s : Store) : Prop :=
  ∀ n ∈ s.nodes, ∀ e ∈ n.inputs, e.source < s.nodes.length

/-- Every head of the symbol points at an allocated node. -/
def MXSymbol.WF (sym : MXSymbol) (s : Store) : Prop :=
  ∀ h ∈ sym.heads, h.source < s.nodes.length

/-! ## DFSVisit

`Symbol::DFSVisit` keeps an explicit stack (`std::vector`, `push_back`/ pop
from the back) and a visited set, marking nodes visited when *pushed*.  The
stack is modelled as a list whose head is the top (the vector's back).  Heads
are seeded front to back; a node's inputs are pushed in reverse order.
The embedding collects the visitation order (the sequence of nodes passed to
`fvisit`) and, for each visited node, the batch of node ids newly discovered
while scanning its inputs (in the order they will later be popped). -/

/-- Seed the stack with the heads, front to back, skipping already-seen ids
(the stack and the visited set coincide after seeding). -/
def seedStack : List Nat → List Nat → List Nat
  | [], acc => acc
  | id :: rest, acc => seedStack rest (if acc.contains id then acc else id :: acc)

/-- Push `ids` with the C++ loop's semantics: the *last* element of `ids` is
pushed first (the C++ iterates `rbegin..rend`), each push guarded by the
visited set.  Returns (new stack, new visited, newly discovered ids in the
order they sit on top of the stack). -/
def pushAll : List Nat → List Nat → List Nat → List Nat × List Nat × List Nat
  | [], stack, visited => (stack, visited, [])
  | id :: rest, stack, visited =>
    let r := pushAll rest stack visited
    if r.2.1.contains id then r
    else (id :: r.1, id :: r.2.1, id :: r.2.2)

/-- The DFS loop.  `fuel` bounds the number of pops; `s.nodes.length` is enough
for every well-formed graph because each node is pushed at most once.  Returns
the visitation order and the per-pop discovery batches. -/
def dfsLoop (s : Store) : Nat → List Nat → List Nat → List Nat →
    List (Nat × List Nat) → List Nat × List (Nat × List Nat)
  | 0, _stack, _visited, acc, tr => (acc.reverse, tr.reverse)
  | fuel+1, stack, visited, acc, tr =>
    match stack with
    | [] => (acc.reverse, tr.reverse)
    | id :: rest =>
      match s.nodes[id]? with
      | none => (acc.reverse, tr.reverse)
      | some n =>
        let r := pushAll (n.inputs.map (fun e => e.source)) rest visited
        dfsLoop s fuel r.1 r.2.1 (id :: acc) ((id, r.2.2) :: tr)

/-- `Symbol::DFSVisit`, returning (visitation order, discovery trace). -/
def dfsFull (s : Store) (sym : MXSymbol) : List Nat × List (Nat × List Nat) :=
  let seed := seedStack (sym.heads.map (fun h => h.source)) []
  dfsLoop s s.nodes.length seed seed [] []

/-- The visitation order of `Symbol::DFSVisit`. -/
def dfs (s : Store) (sym : MXSymbol) : List Nat := (dfsFull s sym).1

/-- One input edge step: `b` is the source of one of `a`'s inputs. -/
def edgeRel (s : Store) (a b : Nat) : Prop :=
  ∃ n, s.nodes[a]? = some n ∧ ∃ e ∈ n.inputs, e.source = b

/-- Reachability from the symbol's heads along input edges. -/
def Reachable (s : Store) (sym : MXSymbol) (id : Nat) : Prop :=
  ∃ h ∈ sym.heads, Relation.ReflTransGen (edgeRel s) h.source id

/-- The traversal skeleton of a store: for each node, its input source ids.
`DFSVisit` reads nothing else of the store. -/
def storeSkeleton (s : Store) : List (List Nat) :=
  s.nodes.map (fun n => n.inputs.map (fun e => e.source))

/-! ## Introspection -/

/-- `Symbol::ListArguments()`: atomic fast path via the operator's declared
arguments, otherwise the names of all variable nodes in traversal order. -/
def listArguments (s : Store) (sym : MXSymbol) : List String :=
  if symIsAtomic s sym then
    match sym.heads with
    | h :: _ =>
      match s.nodes[h.source]? with
      | some n => (n.op.getD default).arguments
      | none => []
    | [] => []
  else
    (dfs s sym).filterMap (fun nid =>
      match s.nodes[nid]? with
      | some n => if n.is_variable then some n.name else none
      | none => none)

/-- The return name produced for one head by `Symbol::ListReturns()`.  The
C++ dereferences `head.source->op` without a null check on every non-variable
head and indexes `op->ListReturns()` without a bounds check; both undefined
behaviours are modelled by `none`. -/
def returnNameOf (s : Store) (h : DataEntry) : Option String := do
  let n ← s.nodes[h.source]?
  if n.is_variable then
    pure n.name
  else do
    let op ← n.op
    let rname ← op.returns[h.index]?
    pure (if n.name.length == 0 then rname else n.name ++ "_" ++ rname)

/-- Collect the return names of all heads; any undefined head makes the whole
call undefined. -/
def listReturnsAux (s : Store) : List DataEntry → Option (List String)
  | [] => some []
  | h :: rest =>
    match returnNameOf s h, listReturnsAux s rest with
    | some r, some t => some (r :: t)
    | _, _ => none

/-- `Symbol::ListReturns()`. -/
def listReturns (s : Store) (sym : MXSymbol) : Option (List String) :=
  listReturnsAux s sym.heads

/-- Update the count stored under key `k` in an association list. -/
def assocSet (m : List (String × Nat)) (k : String) (v : Nat) : List (String × Nat) :=
  m.map (fun kv => if kv.1 == k then (k, v) else kv)

/-- `Symbol::FindDuplicateArgs`: count, per name, the variable nodes carrying
it (each *node* counted once, by traversal), returning the map and the largest
count (at least 1, matching the C++ initialisation). -/
def findDuplicateArgs (s : Store) (sym : MXSymbol) : List (String × Nat) × Nat :=
  (dfs s sym).foldl (fun st nid =>
    match s.nodes[nid]? with
    | none => st
    | some n =>
      if n.is_variable then
        match st.1.lookup n.name with
        | none => (st.1 ++ [(n.name, 1)], st.2)
        | some c => (assocSet st.1 n.name (c + 1), max st.2 (c + 1))
      else st) ([], 1)

/-! ## Errors -/

/-- The failure taxonomy of the `CHECK`s in `symbol.cc`.  `unmatchedKeyword`
carries what the `KeywordArgumentMismatch` message carries: the source tag, the
single offending key the loop stopped at, and the full candidate list. -/
inductive ComposeError where
  | notComposable
  | unsupportedTupleArgument (i : Nat)
  | unsupportedTupleArgumentKw (key : String)
  | arityMismatch (required provided : Nat)
  | duplicateArgumentName (nm : String) (count : Nat)
  | unmatchedKeyword (source key : String) (candidates : List String)
deriving DecidableEq

/-- `KeywordArgumentMismatch`: scan the user keys in order and abort at the
*first* key missing from the candidate set, reporting that key together with
the full candidate list (later unmatched keys are never reached). -/
def keywordArgumentMismatch (source : String) (userArgs cands : List String) :
    Option ComposeError :=
  match userArgs.find? (fun k => !(cands.contains k)) with
  | some k => some (.unmatchedKeyword source k cands)
  | none => none

/-! ## Composition -/

/-- Name for an auto-synthesised placeholder variable: the bare required name
when the group name is empty, otherwise `group_required`. -/
def genPlaceholderName (group req : String) : String :=
  if group.length == 0 then req else group ++ "_" ++ req

/-- State of the positional replacement scan: arguments consumed so far, the
map variable-node ↦ assigned target, and the replacement plan (edge location,
planned target; `none` when the arguments were already exhausted when the
variable was first met, exactly as the C++ leaves `target == nullptr`). -/
def cpFoldEdge (s1 : Store) (args : List MXSymbol) (nid : Nat)
    (st : Nat × List (Nat × DataEntry) × List ((Nat × Nat) × Option DataEntry))
    (i : Nat) (e : DataEntry) :
    Nat × List (Nat × DataEntry) × List ((Nat × Nat) × Option DataEntry) :=
  match s1.nodes[e.source]? with
  | none => st
  | some en =>
    if en.is_variable then
      match st.2.1.lookup e.source with
      | some tgt => (st.1, st.2.1, st.2.2 ++ [((nid, i), some tgt)])
      | none =>
        if st.1 < args.length then
          let tgt := (args.getD st.1 default).heads.getD 0 default
          (st.1 + 1, st.2.1 ++ [(e.source, tgt)], st.2.2 ++ [((nid, i), some tgt)])
        else
          (st.1 + 1, st.2.1, st.2.2 ++ [((nid, i), none)])
    else st

/-- Scan one visited node's inputs left to right (the C++ visitor body). -/
def cpFoldNode (s1 : Store) (args : List MXSymbol)
    (st : Nat × List (Nat × DataEntry) × List ((Nat × Nat) × Option DataEntry))
    (nid : Nat) :
    Nat × List (Nat × DataEntry) × List ((Nat × Nat) × Option DataEntry) :=
  match s1.nodes[nid]? with
  | none => st
  | some n =>
    (List.range n.inputs.length).foldl (fun st i =>
      match n.inputs[i]? with
      | none => st
      | some e => cpFoldEdge s1 args nid st i e) st

/-- The whole replacement scan of the composite positional path: fold the
visitor body over the traversal order. -/
def cpScan (s1 : Store) (sym : MXSymbol) (args : List MXSymbol) :
    Nat × List (Nat × DataEntry) × List ((Nat × Nat) × Option DataEntry) :=
  (dfs s1 sym).foldl (cpFoldNode s1 args) (0, [], [])

/-- Apply a positional replacement plan (second pass of the source). -/
def cpApply (s1 : Store) (plan : List ((Nat × Nat) × Option DataEntry)) : Store :=
  plan.foldl (fun st p => st.setInput p.1.1 p.1.2 (p.2.getD default)) s1

/-- `Symbol::Compose(const std::vector<Symbol>&, const std::string&)`.

Faithful to the source, including: the head rename *before* the argument
checks, and the inverted tuple check `CHECK_NE(args[i].NumReturns(), 1)`,
which fails exactly when argument `i` has one return. -/
def composePositional (s : Store) (sym : MXSymbol) (args : List MXSymbol)
    (nm : String) : Option ComposeError × Store :=
  match sym.heads with
  | [h] =>
    match s.nodes[h.source]? with
    | none => (some .notComposable, s)
    | some hn =>
      if hn.is_variable then (some .notComposable, s)
      else
        match args.findIdx? (fun a => a.heads.length == 1) with
        | some i => (some (.unsupportedTupleArgument i), s.setName h.source nm)
        | none =>
          if hn.is_atomic then
            match hn.op with
            | none => (some .notComposable, s.setName h.source nm)
            | some op =>
              if args.length ≠ op.arguments.length then
                (some (.arityMismatch op.arguments.length args.length),
                 s.setName h.source nm)
              else
                (none, (s.setName h.source nm).setInputs h.source
                  (args.map (fun a => a.heads.getD 0 default)))
          else
            if args.length ≠ (cpScan (s.setName h.source nm) sym args).1 then
              (some (.arityMismatch (cpScan (s.setName h.source nm) sym args).1
                args.length), s.setName h.source nm)
            else
              (none, cpApply (s.setName h.source nm)
                (cpScan (s.setName h.source nm) sym args).2.2)
  | _ => (some .notComposable, s)

/-- State of the keyword replacement scan: matched count, distinct variable
nodes already counted, and the replacement plan. -/
def ckFoldEdge (s1 : Store) (kwargs : List (String × MXSymbol)) (nid : Nat)
    (st : Nat × List Nat × List ((Nat × Nat) × DataEntry))
    (i : Nat) (e : DataEntry) :
    Nat × List Nat × List ((Nat × Nat) × DataEntry) :=
  match s1.nodes[e.source]? with
  | none => st
  | some en =>
    if en.is_variable then
      match kwargs.lookup en.name with
      | some v =>
        let tgt := v.heads.getD 0 default
        if st.2.1.contains e.source then
          (st.1, st.2.1, st.2.2 ++ [((nid, i), tgt)])
        else
          (st.1 + 1, st.2.1 ++ [e.source], st.2.2 ++ [((nid, i), tgt)])
      | none => st
    else st

def ckFoldNode (s1 : Store) (kwargs : List (String × MXSymbol))
    (st : Nat × List Nat × List ((Nat × Nat) × DataEntry)) (nid : Nat) :
    Nat × List Nat × List ((Nat × Nat) × DataEntry) :=
  match s1.nodes[nid]? with
  | none => st
  | some n =>
    (List.range n.inputs.length).foldl (fun st i =>
      match n.inputs[i]? with
      | none => st
      | some e => ckFoldEdge s1 kwargs nid st i e) st

/-- Atomic keyword binding: walk the declared required names in order; bound
ones take the kwarg's head, absent ones get a freshly allocated placeholder
variable.  Returns (input entries, new nodes, matched count); `base` is the id
of the first fresh node. -/
def ckAtomicFill (kwargs : List (String × MXSymbol)) (nm : String) (base : Nat) :
    List String → List DataEntry × List Node × Nat
  | [] => ([], [], 0)
  | rq :: rest =>
    match kwargs.lookup rq with
    | some v =>
      (v.heads.getD 0 default :: (ckAtomicFill kwargs nm base rest).1,
       (ckAtomicFill kwargs nm base rest).2.1,
       (ckAtomicFill kwargs nm base rest).2.2 + 1)
    | none =>
      (DataEntry.mk base 0 :: (ckAtomicFill kwargs nm (base + 1) rest).1,
       Node.mk none none (genPlaceholderName nm rq) [] ::
         (ckAtomicFill kwargs nm (base + 1) rest).2.1,
       (ckAtomicFill kwargs nm (base + 1) rest).2.2)

/-- `Symbol::Compose(const std::unordered_map<std::string, Symbol>&, ...)`.
The unordered map is modelled as an association list fixing an iteration
order.  Faithful to the source: head renamed first; the keyword tuple check is
the correct `CHECK_EQ`; the atomic path rolls its inputs back to empty on a
keyword mismatch and then reports via `KeywordArgumentMismatch` against
`ListArguments()` of the current state; the composite path rejects duplicated
free-variable names before scanning, and applies its plan only when every
kwarg key matched a distinct variable node. -/
def ckScan (s1 : Store) (sym : MXSymbol) (kwargs : List (String × MXSymbol)) :
    Nat × List Nat × List ((Nat × Nat) × DataEntry) :=
  (dfs s1 sym).foldl (ckFoldNode s1 kwargs) (0, [], [])

/-- Apply a keyword replacement plan (second pass of the source). -/
def ckApply (s1 : Store) (plan : List ((Nat × Nat) × DataEntry)) : Store :=
  plan.foldl (fun st p => st.setInput p.1.1 p.1.2 p.2) s1

/-- The store after the atomic keyword path filled the head's input slots and
appended the freshly allocated placeholder nodes. -/
def ckAtomicStore (s1 : Store) (hs : Nat) (fill : List DataEntry × List Node × Nat) :
    Store :=
  ⟨(s1.setInputs hs fill.1).nodes ++ fill.2.1⟩

def composeKeyword (s : Store) (sym : MXSymbol) (kwargs : List (String × MXSymbol))
    (nm : String) : Option ComposeError × Store :=
  match sym.heads with
  | [h] =>
    match s.nodes[h.source]? with
    | none => (some .notComposable, s)
    | some hn =>
      if hn.is_variable then (some .notComposable, s)
      else
        match kwargs.find? (fun kv => kv.2.heads.length != 1) with
        | some kv => (some (.unsupportedTupleArgumentKw kv.1), s.setName h.source nm)
        | none =>
          if hn.is_atomic then
            match hn.op with
            | none => (some .notComposable, s.setName h.source nm)
            | some op =>
              if (ckAtomicFill kwargs nm s.nodes.length op.arguments).2.2 ==
                  kwargs.length then
                (none, ckAtomicStore (s.setName h.source nm) h.source
                  (ckAtomicFill kwargs nm s.nodes.length op.arguments))
              else
                (keywordArgumentMismatch "Symbol.Compose"
                  (kwargs.map (fun kv => kv.1))
                  (listArguments ((ckAtomicStore (s.setName h.source nm) h.source
                    (ckAtomicFill kwargs nm s.nodes.length op.arguments)).setInputs
                      h.source []) sym),
                 (ckAtomicStore (s.setName h.source nm) h.source
                   (ckAtomicFill kwargs nm s.nodes.length op.arguments)).setInputs
                     h.source [])
          else
            if (findDuplicateArgs (s.setName h.source nm) sym).2 > 1 then
              match (findDuplicateArgs (s.setName h.source nm) sym).1.find?
                  (fun kv => kv.2 > 1) with
              | some kv => (some (.duplicateArgumentName kv.1 kv.2),
                  s.setName h.source nm)
              | none => (some (.duplicateArgumentName "" 0), s.setName h.source nm)
            else
              if (ckScan (s.setName h.source nm) sym kwargs).1 == kwargs.length then
                (none, ckApply (s.setName h.source nm)
                  (ckScan (s.setName h.source nm) sym kwargs).2.2)
              else
                (keywordArgumentMismatch "Symbol.Compose"
                  (kwargs.map (fun kv => kv.1))
                  (listArguments (s.setName h.source nm) sym), s.setName h.source nm)
  | _ => (some .notComposable, s)

/-! ## Copy -/

/-- The id the copy of old node `x` gets: new nodes are allocated in traversal
order at the end of the store. -/
def copyMap (s : Store) (order : List Nat) (x : Nat) : Nat :=
  s.nodes.length + order.indexOf x

/-- `Symbol::Copy()`: allocate one fresh node per visited node (same operator
value, same name, *no* backward source — the C++ constructor call never copies
`backward_source_node`), then rebuild each new node's inputs and the heads
through the old→new map. -/
def copySymbol (s : Store) (sym : MXSymbol) : Store × MXSymbol :=
  let order := dfs s sym
  let newNodes := order.map (fun x =>
    match s.nodes[x]? with
    | some n =>
      Node.mk none n.op n.name
        (n.inputs.map (fun e => DataEntry.mk (copyMap s order e.source) e.index))
    | none => default)
  (⟨s.nodes ++ newNodes⟩,
   ⟨sym.heads.map (fun h => DataEntry.mk (copyMap s order h.source) h.index)⟩)

/-! ## Concrete graphs used by the closed theorems -/

/-- A one-argument atomic operator. -/
def plusOp : Op := ⟨"plus", ["a"], ["out"], 1⟩

/-- A two-argument atomic operator with declared arguments `["data","weight"]`. -/
def fcOp : Op := ⟨"FullyConnected", ["data", "weight"], ["output"], 1⟩

/-- Store holding one fresh atomic `plusOp` node (id 0) and a variable `x` (id 1). -/
def atomStore : Store := ⟨[⟨none, some plusOp, "", []⟩, ⟨none, none, "x", []⟩]⟩

/-- The atomic symbol over node 0 of `atomStore`. -/
def atomSym : MXSymbol := ⟨[⟨0, 0⟩]⟩

/-- The single-return variable symbol over node 1 of `atomStore`. -/
def atomArgSym : MXSymbol := ⟨[⟨1, 0⟩]⟩

/-- Store holding a variable `x` (id 0) and a gradient node `g` (id 1): no
operator, backward source node 0, one input edge to node 0.  This is the kind
of node `Symbol::Grad` allocates for gradient heads. -/
def gradStore : Store := ⟨[⟨none, none, "x", []⟩, ⟨some 0, none, "g", [⟨0, 0⟩]⟩]⟩

/-- The symbol whose single head is the gradient node of `gradStore`. -/
def gradSym : MXSymbol := ⟨[⟨1, 0⟩]⟩

/-- Composite graph whose operator node `f` (id 0) uses the same variable
node `x` (id 1) at two distinct input edges; id 2 is a variable `y` used as
the positional argument. -/
def dupEdgeStore : Store :=
  ⟨[⟨none, some plusOp, "f", [⟨1, 0⟩, ⟨1, 0⟩]⟩,
    ⟨none, none, "x", []⟩, ⟨none, none, "y", []⟩]⟩

/-- The composite symbol over node 0 of `dupEdgeStore`. -/
def dupEdgeSym : MXSymbol := ⟨[⟨0, 0⟩]⟩

/-- Composite graph where two *distinct* variable nodes (ids 1 and 2) carry
the same name `x`; id 3 is a variable `z` used as a keyword value. -/
def dupNameStore : Store :=
  ⟨[⟨none, some plusOp, "f", [⟨1, 0⟩, ⟨2, 0⟩]⟩,
    ⟨none, none, "x", []⟩, ⟨none, none, "x", []⟩, ⟨none, none, "z", []⟩]⟩

/-- The composite symbol over node 0 of `dupNameStore`. -/
def dupNameSym : MXSymbol := ⟨[⟨0, 0⟩]⟩

/-- Store for the keyword partial-binding example: fresh atomic `fcOp` node
(id 0) and a variable `x` (id 1). -/
def fcStore : Store := ⟨[⟨none, some fcOp, "", []⟩, ⟨none, none, "x", []⟩]⟩

/-- The atomic symbol over node 0 of `fcStore`. -/
def fcSym : MXSymbol := ⟨[⟨0, 0⟩]⟩

/-- The variable symbol over node 1 of `fcStore`. -/
def fcArgSym : MXSymbol := ⟨[⟨1, 0⟩]⟩

/-- Diamond-shaped graph: node 0 (`h`) has inputs nodes 1 (`b`) and 2 (`c`),
which both share input node 3 (`d`). -/
def diamondStore : Store :=
  ⟨[⟨none, some plusOp, "h", [⟨1, 0⟩, ⟨2, 0⟩]⟩,
    ⟨none, some plusOp, "b", [⟨3, 0⟩]⟩,
    ⟨none, some plusOp, "c", [⟨3, 0⟩]⟩,
    ⟨none, none, "d", []⟩]⟩

/-- The symbol over the diamond's top node. -/
def diamondSym : MXSymbol := ⟨[⟨0, 0⟩]⟩

/-! ## C1 -/

/-- C1: the claim says a supplied argument with `NumReturns() ≠ 1` fails the
tuple check and all-single-return calls pass it.  The source has the check
inverted (`CHECK_NE(args[i].NumReturns(), 1)` fails exactly when the count *is*
1, contradicting its own message "is a tuple, scalar is required" and the
keyword overload's `CHECK_EQ`): composing an atomic one-argument operator with
one single-return argument aborts with `UnsupportedTupleArgument`, while the
same call with a two-return (tuple) argument passes the tuple check and
succeeds. -/
theorem c1_tuple_check_inverted :
    atomArgSym.numReturns = 1 ∧
    (composePositional atomStore atomSym [atomArgSym] "n").1 =
      some (.unsupportedTupleArgument 0) ∧
    (MXSymbol.mk [⟨1, 0⟩, ⟨1, 1⟩]).numReturns = 2 ∧
    (composePositional atomStore atomSym [⟨[⟨1, 0⟩, ⟨1, 1⟩]⟩] "n").1 = none := by
  decide

/-! ## C7 -/

/-- C7: the claim says a composite graph using one variable node at two edges,
positionally composed with one (single-return) argument, succeeds with both
edges rewritten.  On the source the call never reaches the matching phase: the
inverted tuple check of `Compose` aborts with `UnsupportedTupleArgument` on the
single-return argument, and no edge is rewritten (only the head was renamed
before the check). -/
theorem c7_duplicate_variable_compose_aborts :
    (MXSymbol.mk [⟨2, 0⟩]).numReturns = 1 ∧
    (composePositional dupEdgeStore dupEdgeSym [⟨[⟨2, 0⟩]⟩] "n").1 =
      some (.unsupportedTupleArgument 0) ∧
    (composePositional dupEdgeStore dupEdgeSym [⟨[⟨2, 0⟩]⟩] "n").2 =
      dupEdgeStore.setName 0 "n" := by
  decide

/-! ## C4 -/

/-- C4, counterexample: with user keys `["a","b"]` against candidates `["c"]`,
both keys are unmatched, but `KeywordArgumentMismatch` stops at the first
missing key and its failure payload names only `"a"` (together with the full
candidate list); the unmatched `"b"` is never reported, contradicting the
claim that the full list of unmatched keys is reported. -/
theorem c4_counterexample :
    keywordArgumentMismatch "Symbol.Compose" ["a", "b"] ["c"] =
      some (.unmatchedKeyword "Symbol.Compose" "a" ["c"]) ∧
    "b" ∉ ["c"] ∧ ("a" : String) ≠ "b" := by
  decide

/-! ## C2 -/

/-- C2, counterexample: in `gradStore` the gradient node (id 1) has backward
source node 0, but its copy (id 2, the head of the copied symbol) has *no*
backward source — `Symbol::Copy` never writes `backward_source_node` — and has
become variable-variant instead of keeping the gradient-node variant. -/
theorem c2_counterexample :
    (gradStore.nodes[1]?).map (fun n => (n.backward_source_node, n.is_variable)) =
      some (some 0, false) ∧
    (copySymbol gradStore gradSym).2.heads = [⟨2, 0⟩] ∧
    ((copySymbol gradStore gradSym).1.nodes[2]?).map
      (fun n => (n.backward_source_node, n.is_variable)) = some (none, true) := by
  decide

/-! ## C6 -/

/-- C6, counterexample: for the gradient-head symbol of `gradStore`,
`ListArguments()` of the original is `["x"]` (the gradient node is not a
variable), but the copy's gradient node lost its backward-source link, counts
as a variable, and `ListArguments()` of the copy is `["g","x"]` — the copy
does not have identical `ListArguments()`. -/
theorem c6_counterexample :
    listArguments gradStore gradSym = ["x"] ∧
    listArguments (copySymbol gradStore gradSym).1 (copySymbol gradStore gradSym).2 =
      ["g", "x"] ∧
    (["g", "x"] : List String) ≠ ["x"] := by
  decide

/-! ## C3 -/

/-- C3, counterexample: a failing positional Compose (arity mismatch: the
atomic operator requires 1 argument, 0 supplied) leaves the graph modified —
the head node's name was already set to the supplied name `"newname"` before
the arity check fired, contradicting "no node field (including the head node's
name) is changed". -/
theorem c3_counterexample :
    (composePositional atomStore atomSym [] "newname").1 =
      some (.arityMismatch 1 0) ∧
    ((composePositional atomStore atomSym [] "newname").2.nodes[0]?).map
      (fun n => n.name) = some "newname" ∧
    (atomStore.nodes[0]?).map (fun n => n.name) = some "" := by
  decide

/-! ## C8 -/

/-- C8, counterexample: composing the atomic `fcOp` (arguments
`["data","weight"]`) with kwargs `{"data": x}` under group name `"fc"`, where
`x` is the free variable symbol of `fcStore`, succeeds and synthesizes the
placeholder `fc_weight`, but `ListArguments()` of the result is
`["x", "fc_weight"]`, not exactly `["fc_weight"]`: the bound argument's own
free variable stays in the argument list. -/
theorem c8_counterexample :
    (composeKeyword fcStore fcSym [("data", fcArgSym)] "fc").1 = none ∧
    listArguments (composeKeyword fcStore fcSym [("data", fcArgSym)] "fc").2 fcSym =
      ["x", "fc_weight"] ∧
    (["x", "fc_weight"] : List String) ≠ ["fc_weight"] := by
  decide

/-! ## Basic store lemmas -/

theorem Store.modifyNode_length (s : Store) (id : Nat) (f : Node → Node) :
    (s.modifyNode id f).nodes.length = s.nodes.length := by
  unfold Store.modifyNode
  cases h : s.nodes[id]? with
  | none => rfl
  | some n => simp

theorem Store.modifyNode_get_ne (s : Store) (id : Nat) (f : Node → Node)
    (id' : Nat) (hne : id' ≠ id) :
    (s.modifyNode id f).nodes[id']? = s.nodes[id']? := by
  unfold Store.modifyNode
  cases h : s.nodes[id]? with
  | none => rfl
  | some n => simp [List.getElem?_set_ne (Ne.symm hne)]

theorem Store.modifyNode_get_self (s : Store) (id : Nat) (f : Node → Node)
    (n : Node) (h : s.nodes[id]? = some n) :
    (s.modifyNode id f).nodes[id]? = some (f n) := by
  unfold Store.modifyNode
  rw [h]
  have hlt : id < s.nodes.length := by
    have := List.getElem?_eq_some.mp h
    exact this.1
  simp [List.getElem?_set_self, hlt]

/-! ## C2, amended -/

/-- C2, amended: `Symbol::Copy` does *not* remap backward-source links.  Every
node freshly allocated by `Copy` (every node at an id at or beyond the
original store's length) has `backward_source_node = none`, whatever the
original node carried; combined with the counterexample, a copied gradient
node loses its backward source and its gradient-node variant. -/
theorem c2_copy_never_sets_backward (s : Store) (sym : MXSymbol) (id : Nat)
    (n : Node) (hid : s.nodes.length ≤ id)
    (hget : (copySymbol s sym).1.nodes[id]? = some n) :
    n.backward_source_node = none := by
  unfold copySymbol at hget
  simp only at hget
  rw [List.getElem?_append_right hid] at hget
  have hmem : n ∈ (dfs s sym).map (fun x =>
      match s.nodes[x]? with
      | some m =>
        Node.mk none m.op m.name
          (m.inputs.map (fun e => DataEntry.mk (copyMap s (dfs s sym) e.source) e.index))
      | none => default) := by
    obtain ⟨hlt, hEq⟩ := List.getElem?_eq_some.mp hget
    rw [← hEq]
    exact List.getElem_mem hlt
  obtain ⟨x, _, hx⟩ := List.mem_map.mp hmem
  cases hsx : s.nodes[x]? with
  | none => rw [hsx] at hx; rw [← hx]; rfl
  | some m => rw [hsx] at hx; rw [← hx]

/-- Witness for `c2_copy_never_sets_backward` at the gradient graph. -/
theorem c2_copy_never_sets_backward_witness :
    ∃ n, (copySymbol gradStore gradSym).1.nodes[2]? = some n ∧
      n.backward_source_node = none := by
  refine ⟨Node.mk none none "g" [⟨3, 0⟩], by decide, ?_⟩
  exact c2_copy_never_sets_backward gradStore gradSym 2 _ (by decide) (by decide)

/-! ## C4, amended -/

/-- C4, amended: on an unmatched-key failure, `KeywordArgumentMismatch`
reports the *first* unmatched key in user-key order — not the full list of
unmatched keys — together with the full candidate list. -/
theorem c4_reports_first_unmatched_key (source : String)
    (userArgs cands : List String) (k : String) (rest : List String)
    (h : userArgs.filter (fun x => !(cands.contains x)) = k :: rest) :
    keywordArgumentMismatch source userArgs cands =
      some (.unmatchedKeyword source k cands) := by
  induction userArgs with
  | nil => simp at h
  | cons a tl ih =>
    by_cases hm : a ∈ cands
    · rw [List.filter_cons_of_neg (by simp [hm])] at h
      unfold keywordArgumentMismatch at ih ⊢
      rw [List.find?_cons_of_neg _ (by simp [hm])]
      exact ih h
    · rw [List.filter_cons_of_pos (by simp [hm])] at h
      unfold keywordArgumentMismatch
      rw [List.find?_cons_of_pos _ (by simp [hm])]
      injection h with h1 _
      rw [h1]

/-- Witness for `c4_reports_first_unmatched_key`. -/
theorem c4_reports_first_unmatched_key_witness :
    keywordArgumentMismatch "Symbol.Compose" ["a", "b"] ["c"] =
      some (.unmatchedKeyword "Symbol.Compose" "a" ["c"]) :=
  c4_reports_first_unmatched_key "Symbol.Compose" ["a", "b"] ["c"] "a" ["b"] (by decide)

/-! ## C10 -/

theorem listReturnsAux_none_of_mem (s : Store) (h : DataEntry)
    (l : List DataEntry) (hmem : h ∈ l) (hnone : returnNameOf s h = none) :
    listReturnsAux s l = none := by
  induction l with
  | nil => cases hmem
  | cons a tl ih =>
    unfold listReturnsAux
    rcases List.mem_cons.mp hmem with hh | ht
    · rw [← hh, hnone]
    · rw [ih ht]
      cases returnNameOf s a <;> rfl

/-- C10: `ListReturns()` is undefined on any Symbol with a gradient-type head:
whenever some head's node has no operator but a backward-source link (the kind
of node `Symbol::Grad` creates for gradient heads), the head is not a
variable, so the C++ dereferences the absent operator — it never borrows the
backward source's operator — and the embedding returns `none`. -/
theorem c10_listReturns_undefined_on_gradient_head (s : Store) (sym : MXSymbol)
    (h : DataEntry) (n : Node) (hmem : h ∈ sym.heads)
    (hget : s.nodes[h.source]? = some n) (hop : n.op = none)
    (hback : n.backward_source_node.isSome) :
    listReturns s sym = none := by
  have hvar : n.is_variable = false := by
    unfold Node.is_variable
    cases hb : n.backward_source_node with
    | none => rw [hb] at hback; cases hback
    | some b => simp
  have hnone : returnNameOf s h = none := by
    simp only [returnNameOf, hget, Option.bind_eq_bind, Option.some_bind, hop]
    rw [if_neg (by simp [hvar])]
    rfl
  exact listReturnsAux_none_of_mem s h sym.heads hmem hnone

/-- Witness for `c10_listReturns_undefined_on_gradient_head` at the gradient
graph: the head of `gradSym` is the gradient node, so `ListReturns()` is
undefined there. -/
theorem c10_witness : listReturns gradStore gradSym = none :=
  c10_listReturns_undefined_on_gradient_head gradStore gradSym ⟨1, 0⟩
    ⟨some 0, none, "g", [⟨0, 0⟩]⟩ (by decide) (by decide) (by decide) (by decide)


/-! ## Store update lemmas -/

theorem list_set_of_getElem? {α : Type} : ∀ (l : List α) (i : Nat) (a : α),
    l[i]? = some a → l.set i a = l
  | [], i, a, h => by simp at h
  | x :: xs, 0, a, h => by
    simp only [List.getElem?_cons_zero, Option.some.injEq] at h
    simp [← h]
  | x :: xs, i+1, a, h => by
    simp only [List.getElem?_cons_succ] at h
    simp [list_set_of_getElem? xs i a h]

theorem Store.modifyNode_eq_self (s : Store) (id : Nat) (f : Node → Node)
    (n : Node) (h : s.nodes[id]? = some n) (hf : f n = n) :
    s.modifyNode id f = s := by
  unfold Store.modifyNode
  rw [h]
  show (⟨s.nodes.set id (f n)⟩ : Store) = s
  rw [hf, list_set_of_getElem? _ _ _ h]

theorem Store.setName_length (s : Store) (id : Nat) (nm : String) :
    (s.setName id nm).nodes.length = s.nodes.length :=
  Store.modifyNode_length s id _

theorem Store.setInputs_length (s : Store) (id : Nat) (ins : List DataEntry) :
    (s.setInputs id ins).nodes.length = s.nodes.length :=
  Store.modifyNode_length s id _

theorem Store.setName_get_ne (s : Store) (id : Nat) (nm : String) (id' : Nat)
    (h : id' ≠ id) : (s.setName id nm).nodes[id']? = s.nodes[id']? :=
  Store.modifyNode_get_ne s id _ id' h

theorem Store.setInputs_get_ne (s : Store) (id : Nat) (ins : List DataEntry)
    (id' : Nat) (h : id' ≠ id) :
    (s.setInputs id ins).nodes[id']? = s.nodes[id']? :=
  Store.modifyNode_get_ne s id _ id' h

theorem Store.setName_get_self (s : Store) (id : Nat) (nm : String) (n : Node)
    (h : s.nodes[id]? = some n) :
    (s.setName id nm).nodes[id]? = some { n with name := nm } :=
  Store.modifyNode_get_self s id _ n h

theorem Store.setInputs_get_self (s : Store) (id : Nat) (ins : List DataEntry)
    (n : Node) (h : s.nodes[id]? = some n) :
    (s.setInputs id ins).nodes[id]? = some { n with inputs := ins } :=
  Store.modifyNode_get_self s id _ n h


/-! ## Failure-state characterization of Compose -/

/-- Case analysis on a positional Compose: it either fails before any
mutation, fails with only the head renamed, or succeeds. -/
theorem composePositional_cases (s : Store) (sym : MXSymbol)
    (args : List MXSymbol) (nm : String) :
    (∃ e, composePositional s sym args nm = (some e, s)) ∨
    (∃ e h, sym.heads = [h] ∧
      composePositional s sym args nm = (some e, s.setName h.source nm)) ∨
    (composePositional s sym args nm).1 = none := by
  unfold composePositional
  split
  next hd heq =>
    split
    next => exact Or.inl ⟨.notComposable, rfl⟩
    next hn hg =>
      split
      next => exact Or.inl ⟨.notComposable, rfl⟩
      next =>
        split
        next i hf => exact Or.inr (Or.inl ⟨_, hd, heq, rfl⟩)
        next hf =>
          split
          next ha =>
            split
            next => exact Or.inr (Or.inl ⟨_, hd, heq, rfl⟩)
            next op hop =>
              split
              next => exact Or.inr (Or.inl ⟨_, hd, heq, rfl⟩)
              next => exact Or.inr (Or.inr rfl)
          next ha =>
            split
            next => exact Or.inr (Or.inl ⟨_, hd, heq, rfl⟩)
            next => exact Or.inr (Or.inr rfl)
  next => exact Or.inl ⟨.notComposable, rfl⟩

/-- Case analysis on a keyword Compose: it fails before any mutation, fails
with only the head renamed, takes the atomic fill-then-rollback path, or
succeeds. -/
theorem composeKeyword_cases (s : Store) (sym : MXSymbol)
    (kwargs : List (String × MXSymbol)) (nm : String) :
    (∃ e, composeKeyword s sym kwargs nm = (some e, s)) ∨
    (∃ eo h, sym.heads = [h] ∧
      composeKeyword s sym kwargs nm = (eo, s.setName h.source nm)) ∨
    (∃ eo h hn op, sym.heads = [h] ∧ s.nodes[h.source]? = some hn ∧
      hn.is_atomic = true ∧ hn.op = some op ∧
      composeKeyword s sym kwargs nm = (eo,
        (ckAtomicStore (s.setName h.source nm) h.source
          (ckAtomicFill kwargs nm s.nodes.length op.arguments)).setInputs
            h.source [])) ∨
    (composeKeyword s sym kwargs nm).1 = none := by
  unfold composeKeyword
  split
  next hd heq =>
    split
    next => exact Or.inl ⟨.notComposable, rfl⟩
    next hn hg =>
      split
      next => exact Or.inl ⟨.notComposable, rfl⟩
      next =>
        split
        next kv hf => exact Or.inr (Or.inl ⟨_, hd, heq, rfl⟩)
        next hf =>
          split
          next ha =>
            split
            next => exact Or.inr (Or.inl ⟨_, hd, heq, rfl⟩)
            next op hop =>
              split
              next => exact Or.inr (Or.inr (Or.inr rfl))
              next =>
                exact Or.inr (Or.inr (Or.inl ⟨_, hd, hn, op, heq, hg, ha, hop, rfl⟩))
          next ha =>
            split
            next hd2 =>
              split
              next kv hfd => exact Or.inr (Or.inl ⟨_, hd, heq, rfl⟩)
              next hfd => exact Or.inr (Or.inl ⟨_, hd, heq, rfl⟩)
            next hd2 =>
              split
              next => exact Or.inr (Or.inr (Or.inr rfl))
              next => exact Or.inr (Or.inl ⟨_, hd, heq, rfl⟩)
  next => exact Or.inl ⟨.notComposable, rfl⟩

/-! ## C3, amended -/

/-- C3, amended: a failing Compose call (either overload) rewrites no input
edge and changes no field of any previously existing node other than the head
node's `name`: the head's node is either untouched (the NotComposable checks
precede any mutation) or changed only by the rename the source performs before
the remaining checks.  (Placeholder nodes the atomic keyword path allocated and
rolled back live at fresh ids beyond the original store; ids below the original
length are all covered.) -/
theorem c3_failure_renames_head_only (s : Store) (sym : MXSymbol)
    (args : List MXSymbol) (kwargs : List (String × MXSymbol)) (nm : String) :
    (∀ e, (composePositional s sym args nm).1 = some e →
      (∀ id, id < s.nodes.length → (∀ hd ∈ sym.heads, id ≠ hd.source) →
        (composePositional s sym args nm).2.nodes[id]? = s.nodes[id]?) ∧
      (∀ hd ∈ sym.heads, ∀ n, s.nodes[hd.source]? = some n →
        (composePositional s sym args nm).2.nodes[hd.source]? = some n ∨
        (composePositional s sym args nm).2.nodes[hd.source]? =
          some { n with name := nm })) ∧
    (∀ e, (composeKeyword s sym kwargs nm).1 = some e →
      (∀ id, id < s.nodes.length → (∀ hd ∈ sym.heads, id ≠ hd.source) →
        (composeKeyword s sym kwargs nm).2.nodes[id]? = s.nodes[id]?) ∧
      (∀ hd ∈ sym.heads, ∀ n, s.nodes[hd.source]? = some n →
        (composeKeyword s sym kwargs nm).2.nodes[hd.source]? = some n ∨
        (composeKeyword s sym kwargs nm).2.nodes[hd.source]? =
          some { n with name := nm })) := by
  constructor
  · intro e he
    rcases composePositional_cases s sym args nm with ⟨e', hv⟩ | ⟨e', h, hheads, hv⟩ | hnone
    · rw [hv]
      exact ⟨fun _ _ _ => rfl, fun _ _ _ hx => Or.inl hx⟩
    · rw [hv]
      refine ⟨fun id _ hne =>
        Store.setName_get_ne s h.source nm id (hne h (by rw [hheads]; simp)), ?_⟩
      intro hd hmem n hn
      rw [hheads] at hmem
      rcases List.mem_singleton.mp hmem with rfl
      exact Or.inr (Store.setName_get_self s hd.source nm n hn)
    · rw [he] at hnone
      cases hnone
  · intro e he
    rcases composeKeyword_cases s sym kwargs nm with
      ⟨e', hv⟩ | ⟨eo, h, hheads, hv⟩ | ⟨eo, h, hn0, op, hheads, hg, ha, hop, hv⟩ | hnone
    · rw [hv]
      exact ⟨fun _ _ _ => rfl, fun _ _ _ hx => Or.inl hx⟩
    · rw [hv]
      refine ⟨fun id _ hne =>
        Store.setName_get_ne s h.source nm id (hne h (by rw [hheads]; simp)), ?_⟩
      intro hd hmem n hn
      rw [hheads] at hmem
      rcases List.mem_singleton.mp hmem with rfl
      exact Or.inr (Store.setName_get_self s hd.source nm n hn)
    · rw [hv]
      have hlth : h.source < s.nodes.length := (List.getElem?_eq_some.mp hg).1
      have hlen1 : ((s.setName h.source nm).setInputs h.source
          (ckAtomicFill kwargs nm s.nodes.length op.arguments).1).nodes.length =
          s.nodes.length := by
        rw [Store.setInputs_length, Store.setName_length]
      have hinp : hn0.inputs = [] := by
        unfold Node.is_atomic at ha
        exact List.isEmpty_iff.mp (Bool.and_elim_left ha)
      constructor
      · intro id hlt hne
        have hneh : id ≠ h.source := hne h (by rw [hheads]; simp)
        rw [Store.setInputs_get_ne _ h.source _ id hneh]
        simp only [ckAtomicStore]
        rw [List.getElem?_append_left (by rw [hlen1]; exact hlt)]
        rw [Store.setInputs_get_ne _ h.source _ id hneh,
          Store.setName_get_ne s h.source nm id hneh]
      · intro hd hmem n hn
        rw [hheads] at hmem
        rcases List.mem_singleton.mp hmem with rfl
        rw [hg] at hn
        injection hn with hn'
        subst hn'
        right
        have h1 : (s.setName hd.source nm).nodes[hd.source]? =
            some { hn0 with name := nm } :=
          Store.setName_get_self s hd.source nm hn0 hg
        have h2 := Store.setInputs_get_self _ hd.source
          (ckAtomicFill kwargs nm s.nodes.length op.arguments).1 _ h1
        have h3 : (ckAtomicStore (s.setName hd.source nm) hd.source
            (ckAtomicFill kwargs nm s.nodes.length op.arguments)).nodes[hd.source]? =
            some { hn0 with name := nm, inputs :=
              (ckAtomicFill kwargs nm s.nodes.length op.arguments).1 } := by
          simp only [ckAtomicStore]
          rw [List.getElem?_append_left (by rw [hlen1]; exact hlth)]
          exact h2
        have h4 := Store.setInputs_get_self _ hd.source [] _ h3
        rw [h4, hinp]
    · rw [he] at hnone
      cases hnone

/-- Witness for `c3_failure_renames_head_only`: the failing arity-mismatch
call of the counterexample leaves the non-head node 1 untouched. -/
theorem c3_failure_renames_head_only_witness :
    (composePositional atomStore atomSym [] "newname").2.nodes[1]? =
      atomStore.nodes[1]? :=
  ((c3_failure_renames_head_only atomStore atomSym [] [] "newname").1
    (.arityMismatch 1 0) (by decide)).1 1 (by decide) (by decide)

/-! ## C8, amended -/

theorem ckAtomicFill_absent (kwargs : List (String × MXSymbol)) (nm : String) :
    ∀ (reqs : List String) (base i : Nat) (rq : String),
      reqs[i]? = some rq → kwargs.lookup rq = none →
      ∃ j, (ckAtomicFill kwargs nm base reqs).1[i]? = some ⟨base + j, 0⟩ ∧
        (ckAtomicFill kwargs nm base reqs).2.1[j]? =
          some ⟨none, none, genPlaceholderName nm rq, []⟩ := by
  intro reqs
  induction reqs with
  | nil => intro base i rq hi _; simp at hi
  | cons a tl ih =>
    intro base i rq hi habs
    cases i with
    | zero =>
      simp only [List.getElem?_cons_zero, Option.some.injEq] at hi
      subst hi
      unfold ckAtomicFill
      rw [habs]
      exact ⟨0, by simp, by simp⟩
    | succ i' =>
      simp only [List.getElem?_cons_succ] at hi
      unfold ckAtomicFill
      cases hl : kwargs.lookup a with
      | some v =>
        obtain ⟨j, h1, h2⟩ := ih base i' rq hi habs
        exact ⟨j, by simpa using h1, by simpa using h2⟩
      | none =>
        obtain ⟨j, h1, h2⟩ := ih (base + 1) i' rq hi habs
        refine ⟨j + 1, ?_, ?_⟩
        · simp only [List.getElem?_cons_succ]
          rw [h1, show base + 1 + j = base + (j + 1) from by omega]
        · simpa using h2

/-- The atomic keyword path, on success, produces exactly the filled store. -/
theorem composeKeyword_atomic_success (s : Store) (h : DataEntry) (hn : Node)
    (op : Op) (kwargs : List (String × MXSymbol)) (nm : String)
    (hg : s.nodes[h.source]? = some hn)
    (hv : hn.is_variable = false)
    (ha : hn.is_atomic = true)
    (hop : hn.op = some op)
    (htuple : kwargs.find? (fun kv => kv.2.heads.length != 1) = none)
    (hmatch : (ckAtomicFill kwargs nm s.nodes.length op.arguments).2.2 =
      kwargs.length) :
    composeKeyword s ⟨[h]⟩ kwargs nm =
      (none, ckAtomicStore (s.setName h.source nm) h.source
        (ckAtomicFill kwargs nm s.nodes.length op.arguments)) := by
  simp only [composeKeyword, hg, hv, Bool.false_eq_true, if_false, htuple, ha,
    if_true, hop, hmatch, beq_self_eq_true]

/-- C8, amended: on a successful keyword Compose of an atomic operator, every
required argument name absent from kwargs is bound to a freshly synthesized
variable node named with the bare required name when the group name is empty
and with `group_required` otherwise; on the spec's example (`fcOp` with kwargs
`{"data": x}`, group name `"fc"`, `x` a free variable named `"x"`), the
placeholder is `fc_weight` but `ListArguments()` of the result is
`["x", "fc_weight"]` — exactly `["fc_weight"]` only holds when the bound
argument contributes no free variables. -/
theorem c8_placeholder_naming (s : Store) (h : DataEntry) (hn : Node) (op : Op)
    (kwargs : List (String × MXSymbol)) (nm : String)
    (hg : s.nodes[h.source]? = some hn) (hv : hn.is_variable = false)
    (ha : hn.is_atomic = true) (hop : hn.op = some op)
    (htuple : kwargs.find? (fun kv => kv.2.heads.length != 1) = none)
    (hmatch : (ckAtomicFill kwargs nm s.nodes.length op.arguments).2.2 =
      kwargs.length)
    (i : Nat) (rq : String) (hi : op.arguments[i]? = some rq)
    (habs : kwargs.lookup rq = none) :
    (composeKeyword s ⟨[h]⟩ kwargs nm).1 = none ∧
    (∃ j, ((composeKeyword s ⟨[h]⟩ kwargs nm).2.nodes[h.source]?).map
        (fun n => n.inputs[i]?) = some (some ⟨s.nodes.length + j, 0⟩) ∧
      (composeKeyword s ⟨[h]⟩ kwargs nm).2.nodes[s.nodes.length + j]? =
        some ⟨none, none, genPlaceholderName nm rq, []⟩) ∧
    listArguments (composeKeyword fcStore fcSym [("data", fcArgSym)] "fc").2 fcSym =
      ["x", "fc_weight"] := by
  have hck := composeKeyword_atomic_success s h hn op kwargs nm hg hv ha hop
    htuple hmatch
  have hlth : h.source < s.nodes.length := (List.getElem?_eq_some.mp hg).1
  have hlen1 : ((s.setName h.source nm).setInputs h.source
      (ckAtomicFill kwargs nm s.nodes.length op.arguments).1).nodes.length =
      s.nodes.length := by
    rw [Store.setInputs_length, Store.setName_length]
  obtain ⟨j, hj1, hj2⟩ := ckAtomicFill_absent kwargs nm op.arguments
    s.nodes.length i rq hi habs
  have hhead : (ckAtomicStore (s.setName h.source nm) h.source
      (ckAtomicFill kwargs nm s.nodes.length op.arguments)).nodes[h.source]? =
      some { hn with name := nm, inputs :=
        (ckAtomicFill kwargs nm s.nodes.length op.arguments).1 } := by
    simp only [ckAtomicStore]
    rw [List.getElem?_append_left (by rw [hlen1]; exact hlth)]
    exact Store.setInputs_get_self _ h.source _ _
      (Store.setName_get_self s h.source nm hn hg)
  refine ⟨by rw [hck], ⟨j, ?_, ?_⟩, by decide⟩
  · rw [hck]
    rw [hhead]
    simp only [Option.map_some']
    rw [hj1]
  · rw [hck]
    simp only [ckAtomicStore]
    rw [List.getElem?_append_right (by rw [hlen1]; omega)]
    rw [hlen1, show s.nodes.length + j - s.nodes.length = j from by omega]
    exact hj2

/-- Witness for `c8_placeholder_naming` at the spec's example: required name
`"weight"` (index 1) is absent from `{"data": x}`, and under group name
`"fc"` its placeholder is named `fc_weight`. -/
theorem c8_placeholder_naming_witness :
    (composeKeyword fcStore fcSym [("data", fcArgSym)] "fc").1 = none ∧
    (∃ j, ((composeKeyword fcStore fcSym [("data", fcArgSym)] "fc").2.nodes[(0 : Nat)]?).map
        (fun n => n.inputs[(1 : Nat)]?) = some (some ⟨fcStore.nodes.length + j, 0⟩) ∧
      (composeKeyword fcStore fcSym [("data", fcArgSym)] "fc").2.nodes[fcStore.nodes.length + j]? =
        some ⟨none, none, genPlaceholderName "fc" "weight", []⟩) ∧
    listArguments (composeKeyword fcStore fcSym [("data", fcArgSym)] "fc").2 fcSym =
      ["x", "fc_weight"] :=
  c8_placeholder_naming fcStore ⟨0, 0⟩ ⟨none, some fcOp, "", []⟩ fcOp
    [("data", fcArgSym)] "fc" (by decide) (by decide) (by decide) (by decide)
    (by decide) (by decide) 1 "weight" (by decide) (by decide)

/-! ## DFS unfolding and skeleton invariance -/

theorem dfsLoop_nil (s : Store) (fuel : Nat) (visited acc : List Nat)
    (tr : List (Nat × List Nat)) :
    dfsLoop s fuel [] visited acc tr = (acc.reverse, tr.reverse) := by
  cases fuel <;> simp [dfsLoop]

theorem dfsLoop_cons_some (s : Store) (fuel id : Nat) (rest visited acc : List Nat)
    (tr : List (Nat × List Nat)) (n : Node) (h : s.nodes[id]? = some n) :
    dfsLoop s (fuel + 1) (id :: rest) visited acc tr =
      dfsLoop s fuel (pushAll (n.inputs.map (fun e => e.source)) rest visited).1
        (pushAll (n.inputs.map (fun e => e.source)) rest visited).2.1
        (id :: acc)
        ((id, (pushAll (n.inputs.map (fun e => e.source)) rest visited).2.2) :: tr) := by
  simp [dfsLoop, h]

theorem dfsLoop_cons_none (s : Store) (fuel id : Nat) (rest visited acc : List Nat)
    (tr : List (Nat × List Nat)) (h : s.nodes[id]? = none) :
    dfsLoop s (fuel + 1) (id :: rest) visited acc tr = (acc.reverse, tr.reverse) := by
  simp [dfsLoop, h]

theorem storeSkeleton_length (s : Store) :
    (storeSkeleton s).length = s.nodes.length := by
  simp [storeSkeleton]

theorem dfsLoop_skeleton (s t : Store) (hsk : storeSkeleton s = storeSkeleton t) :
    ∀ fuel stack visited acc tr,
      dfsLoop s fuel stack visited acc tr = dfsLoop t fuel stack visited acc tr := by
  have hget : ∀ id : Nat, Option.map (fun n : Node => n.inputs.map (fun e => e.source))
        s.nodes[id]? =
      Option.map (fun n : Node => n.inputs.map (fun e => e.source)) t.nodes[id]? := by
    intro id
    have h1 : (storeSkeleton s)[id]? = (storeSkeleton t)[id]? := by rw [hsk]
    simpa [storeSkeleton, List.getElem?_map] using h1
  intro fuel
  induction fuel with
  | zero => intro stack visited acc tr; rfl
  | succ fuel ih =>
    intro stack visited acc tr
    cases stack with
    | nil => rw [dfsLoop_nil, dfsLoop_nil]
    | cons id rest =>
      cases hs : s.nodes[id]? with
      | none =>
        cases ht : t.nodes[id]? with
        | none => rw [dfsLoop_cons_none _ _ _ _ _ _ _ hs,
            dfsLoop_cons_none _ _ _ _ _ _ _ ht]
        | some n =>
          exfalso
          have := hget id
          rw [hs, ht] at this
          cases this
      | some n =>
        cases ht : t.nodes[id]? with
        | none =>
          exfalso
          have := hget id
          rw [hs, ht] at this
          cases this
        | some n' =>
          have hin : n.inputs.map (fun e => e.source) =
              n'.inputs.map (fun e => e.source) := by
            have := hget id
            rw [hs, ht] at this
            simpa using this
          rw [dfsLoop_cons_some _ _ _ _ _ _ _ _ hs,
            dfsLoop_cons_some _ _ _ _ _ _ _ _ ht, hin, ih]

theorem dfsFull_skeleton (s t : Store) (sym symt : MXSymbol)
    (hsk : storeSkeleton s = storeSkeleton t)
    (hheads : sym.heads.map (fun h => h.source) =
      symt.heads.map (fun h => h.source)) :
    dfsFull s sym = dfsFull t symt := by
  unfold dfsFull
  have hlen : s.nodes.length = t.nodes.length := by
    have := congrArg List.length hsk
    rwa [storeSkeleton_length, storeSkeleton_length] at this
  rw [hheads, hlen, dfsLoop_skeleton s t hsk]

theorem storeSkeleton_modifyNode (s : Store) (id : Nat) (f : Node → Node)
    (hf : ∀ n, (f n).inputs = n.inputs) :
    storeSkeleton (s.modifyNode id f) = storeSkeleton s := by
  unfold Store.modifyNode
  cases h : s.nodes[id]? with
  | none => rfl
  | some n =>
    show storeSkeleton ⟨s.nodes.set id (f n)⟩ = storeSkeleton s
    unfold storeSkeleton
    rw [List.map_set, hf n]
    apply list_set_of_getElem?
    rw [List.getElem?_map, h]
    rfl

theorem storeSkeleton_setName (s : Store) (id : Nat) (nm : String) :
    storeSkeleton (s.setName id nm) = storeSkeleton s :=
  storeSkeleton_modifyNode s id _ (fun _ => rfl)

theorem dfs_setName (s : Store) (sym : MXSymbol) (id : Nat) (nm : String) :
    dfs (s.setName id nm) sym = dfs s sym := by
  unfold dfs
  rw [dfsFull_skeleton (s.setName id nm) s sym sym (storeSkeleton_setName s id nm) rfl]

/-! ## Association list lemmas -/

theorem lookup_mem {α β : Type} [BEq α] [LawfulBEq α] :
    ∀ {l : List (α × β)} {a : α} {b : β}, l.lookup a = some b → (a, b) ∈ l := by
  intro l
  induction l with
  | nil => intro a b h; cases h
  | cons kv tl ih =>
    intro a b h
    rw [List.lookup] at h
    cases hk : (a == kv.1) with
    | true =>
      rw [hk] at h
      injection h with h'
      rcases kv with ⟨k, v⟩
      have : a = k := by simpa using hk
      subst this
      rw [← h']
      exact List.mem_cons_self _ _
    | false =>
      rw [hk] at h
      exact List.mem_cons_of_mem _ (ih h)

theorem lookup_none_key {α β : Type} [BEq α] [LawfulBEq α] :
    ∀ {l : List (α × β)} {a : α}, l.lookup a = none → a ∉ l.map Prod.fst := by
  intro l
  induction l with
  | nil => intro a _ h; cases h
  | cons kv tl ih =>
    intro a h hmem
    rw [List.lookup] at h
    cases hk : (a == kv.1) with
    | true => rw [hk] at h; cases h
    | false =>
      rw [hk] at h
      rcases List.mem_cons.mp hmem with heq | hmem'
      · rw [heq] at hk
        simp at hk
      · exact ih h hmem'

theorem keys_unique_val {α β : Type} [BEq α] [LawfulBEq α] :
    ∀ {l : List (α × β)} {a : α} {b b' : β},
      (l.map Prod.fst).Nodup → (a, b) ∈ l → (a, b') ∈ l → b = b' := by
  intro l
  induction l with
  | nil => intro a b b' _ h; cases h
  | cons kv tl ih =>
    intro a b b' hnd h1 h2
    rw [List.map_cons, List.nodup_cons] at hnd
    rcases List.mem_cons.mp h1 with he1 | hm1 <;>
      rcases List.mem_cons.mp h2 with he2 | hm2
    · rw [← he2] at he1
      exact congrArg Prod.snd he1
    · exfalso
      apply hnd.1
      rw [← he1]
      exact List.mem_map.mpr ⟨(a, b'), hm2, rfl⟩
    · exfalso
      apply hnd.1
      rw [← he2]
      exact List.mem_map.mpr ⟨(a, b), hm1, rfl⟩
    · exact ih hnd.2 hm1 hm2

theorem assocSet_keys (m : List (String × Nat)) (k : String) (v : Nat) :
    (assocSet m k v).map Prod.fst = m.map Prod.fst := by
  unfold assocSet
  rw [List.map_map]
  apply List.map_congr_left
  intro kv _
  by_cases hk : kv.1 = k
  · simp [hk]
  · simp [hk]

theorem assocSet_mem (m : List (String × Nat)) (k : String) (v c : Nat)
    (h : (k, c) ∈ m) : (k, v) ∈ assocSet m k v := by
  unfold assocSet
  exact List.mem_map.mpr ⟨(k, c), h, by simp⟩

theorem assocSet_mem_ne (m : List (String × Nat)) (k : String) (v : Nat)
    (kv : String × Nat) (h : kv ∈ m) (hne : kv.1 ≠ k) : kv ∈ assocSet m k v := by
  unfold assocSet
  exact List.mem_map.mpr ⟨kv, h, by simp [hne]⟩

/-! ## FindDuplicateArgs facts -/

/-- The visitor body of `FindDuplicateArgs` as a named step function. -/
theorem findDuplicateArgs_def (s : Store) (sym : MXSymbol) :
    findDuplicateArgs s sym = (dfs s sym).foldl (fun st nid =>
      match s.nodes[nid]? with
      | none => st
      | some n =>
        if n.is_variable then
          match st.1.lookup n.name with
          | none => (st.1 ++ [(n.name, 1)], st.2)
          | some c => (assocSet st.1 n.name (c + 1), max st.2 (c + 1))
        else st) ([], 1) := rfl

/-- Invariant of the duplicate-count fold: keys are unique and the running
maximum is 1 or realized by some entry. -/
theorem findDuplicateArgs_fold_spec (s : Store) :
    ∀ (l : List Nat) (st : List (String × Nat) × Nat),
      (st.1.map Prod.fst).Nodup →
      (st.2 = 1 ∨ ∃ kv ∈ st.1, st.2 ≤ kv.2) →
      ((l.foldl (fun st nid =>
        match s.nodes[nid]? with
        | none => st
        | some n =>
          if n.is_variable then
            match st.1.lookup n.name with
            | none => (st.1 ++ [(n.name, 1)], st.2)
            | some c => (assocSet st.1 n.name (c + 1), max st.2 (c + 1))
          else st) st).1.map Prod.fst).Nodup ∧
      ((l.foldl (fun st nid =>
        match s.nodes[nid]? with
        | none => st
        | some n =>
          if n.is_variable then
            match st.1.lookup n.name with
            | none => (st.1 ++ [(n.name, 1)], st.2)
            | some c => (assocSet st.1 n.name (c + 1), max st.2 (c + 1))
          else st) st).2 = 1 ∨
       ∃ kv ∈ (l.foldl (fun st nid =>
        match s.nodes[nid]? with
        | none => st
        | some n =>
          if n.is_variable then
            match st.1.lookup n.name with
            | none => (st.1 ++ [(n.name, 1)], st.2)
            | some c => (assocSet st.1 n.name (c + 1), max st.2 (c + 1))
          else st) st).1, (l.foldl (fun st nid =>
        match s.nodes[nid]? with
        | none => st
        | some n =>
          if n.is_variable then
            match st.1.lookup n.name with
            | none => (st.1 ++ [(n.name, 1)], st.2)
            | some c => (assocSet st.1 n.name (c + 1), max st.2 (c + 1))
          else st) st).2 ≤ kv.2) := by
  intro l
  induction l with
  | nil => intro st h1 h2; exact ⟨h1, h2⟩
  | cons nid rest ih =>
    intro st h1 h2
    rw [List.foldl_cons]
    apply ih
    · -- keys stay unique after one step
      cases hg : s.nodes[nid]? with
      | none => simpa [hg] using h1
      | some n =>
        by_cases hv : n.is_variable
        · cases hl : st.1.lookup n.name with
          | none =>
            simp only [hg, hv, if_true]
            rw [hl]
            simp only [List.map_append, List.map_cons, List.map_nil]
            rw [List.nodup_append]
            refine ⟨h1, by simp, ?_⟩
            intro a ha hb
            simp only [List.mem_cons, List.not_mem_nil, or_false] at hb
            subst hb
            exact lookup_none_key hl ha
          | some c =>
            simp only [hg, hv, if_true]
            rw [hl]
            simpa [assocSet_keys] using h1
        · have hv' : n.is_variable = false := by simpa using hv
          simpa [hg, hv'] using h1
    · -- the max stays realized after one step
      cases hg : s.nodes[nid]? with
      | none => simpa [hg] using h2
      | some n =>
        by_cases hv : n.is_variable
        · cases hl : st.1.lookup n.name with
          | none =>
            simp only [hg, hv, if_true]
            rw [hl]
            rcases h2 with h2 | ⟨kv, hkv, hle⟩
            · exact Or.inl h2
            · exact Or.inr ⟨kv, List.mem_append_left _ hkv, hle⟩
          | some c =>
            simp only [hg, hv, if_true]
            rw [hl]
            have hmem : (n.name, c) ∈ st.1 := lookup_mem hl
            by_cases hcase : st.2 ≤ c + 1
            · right
              refine ⟨(n.name, c + 1), assocSet_mem _ _ _ _ hmem, ?_⟩
              exact sup_le hcase (le_refl _)
            · right
              have hlt : c + 1 < st.2 := by omega
              rcases h2 with h2 | ⟨kv, hkv, hle⟩
              · omega
              · by_cases hkey : kv.1 = n.name
                · exfalso
                  have : kv.2 = c := by
                    apply keys_unique_val h1 _ hmem
                    rw [← hkey]
                    exact hkv
                  omega
                · refine ⟨kv, assocSet_mem_ne _ _ _ kv hkv hkey, ?_⟩
                  exact sup_le hle (le_trans (le_of_lt hlt) hle)
        · have hv' : n.is_variable = false := by simpa using hv
          simpa [hg, hv'] using h2

/-- When `FindDuplicateArgs` reports a maximum above 1, some entry of its map
realizes it (so the failing `CHECK_EQ` scan finds an offending name). -/
theorem findDuplicateArgs_max_realized (s : Store) (sym : MXSymbol)
    (h : (findDuplicateArgs s sym).2 > 1) :
    ∃ kv ∈ (findDuplicateArgs s sym).1, (findDuplicateArgs s sym).2 ≤ kv.2 := by
  have := findDuplicateArgs_fold_spec s (dfs s sym) ([], 1) (by simp) (Or.inl rfl)
  rw [findDuplicateArgs_def]
  rcases this.2 with h2 | h2
  · rw [findDuplicateArgs_def] at h
    omega
  · exact h2

/-! ## C9 -/

theorem findDuplicateArgs_setName (s : Store) (sym : MXSymbol) (id : Nat)
    (nm : String) (hn : Node) (hget : s.nodes[id]? = some hn)
    (hvar : hn.is_variable = false) :
    findDuplicateArgs (s.setName id nm) sym = findDuplicateArgs s sym := by
  rw [findDuplicateArgs_def, findDuplicateArgs_def, dfs_setName]
  apply List.foldl_ext
  intro st nid _
  by_cases hid : nid = id
  · subst hid
    rw [Store.setName_get_self s nid nm hn hget, hget]
    have hvar2 : ({ hn with name := nm } : Node).is_variable = false := by
      unfold Node.is_variable at hvar ⊢
      exact hvar
    simp [hvar2, hvar]
  · rw [Store.setName_get_ne s id nm nid hid]

/-- The composite keyword path with a duplicated free-variable name fails with
`DuplicateArgumentName` and leaves the graph with only the head renamed. -/
theorem composeKeyword_dup_fail (s : Store) (h : DataEntry) (hn : Node)
    (kwargs : List (String × MXSymbol)) (nm : String) (kv : String × Nat)
    (hg : s.nodes[h.source]? = some hn)
    (hv : hn.is_variable = false)
    (ha : hn.is_atomic = false)
    (htuple : kwargs.find? (fun kv => kv.2.heads.length != 1) = none)
    (hdup : (findDuplicateArgs (s.setName h.source nm) ⟨[h]⟩).2 > 1)
    (hfd : (findDuplicateArgs (s.setName h.source nm) ⟨[h]⟩).1.find?
      (fun kv => kv.2 > 1) = some kv) :
    composeKeyword s ⟨[h]⟩ kwargs nm =
      (some (.duplicateArgumentName kv.1 kv.2), s.setName h.source nm) := by
  simp only [composeKeyword, hg, hv, Bool.false_eq_true, if_false, htuple, ha]
  rw [if_pos hdup]
  simp only [hfd]

/-- C9: for every keyword Compose on a composite (non-atomic, non-variable,
single-return) Symbol whose reachable graph has some free-variable name at
more than one distinct variable node (`FindDuplicateArgs` maximum above 1),
the call fails with `DuplicateArgumentName` before any rewrite: the resulting
store is exactly the original with only the head renamed.  The kwargs are
arbitrary — in particular the duplicated name need not be among the supplied
keys. -/
theorem c9_duplicate_name_rejected (s : Store) (sym : MXSymbol)
    (kwargs : List (String × MXSymbol)) (nm : String) (h : DataEntry) (hn : Node)
    (hheads : sym.heads = [h])
    (hg : s.nodes[h.source]? = some hn)
    (hv : hn.is_variable = false)
    (ha : hn.is_atomic = false)
    (htuple : kwargs.find? (fun kv => kv.2.heads.length != 1) = none)
    (hdup : (findDuplicateArgs s sym).2 > 1) :
    ∃ dn c, c > 1 ∧
      composeKeyword s sym kwargs nm =
        (some (.duplicateArgumentName dn c), s.setName h.source nm) := by
  rcases sym with ⟨hds⟩
  simp only at hheads
  subst hheads
  have hfde : findDuplicateArgs (s.setName h.source nm) ⟨[h]⟩ =
      findDuplicateArgs s ⟨[h]⟩ :=
    findDuplicateArgs_setName s ⟨[h]⟩ h.source nm hn hg hv
  have hdup2 : (findDuplicateArgs (s.setName h.source nm) ⟨[h]⟩).2 > 1 := by
    rw [hfde]; exact hdup
  obtain ⟨kv0, hkv0, hle⟩ := findDuplicateArgs_max_realized s ⟨[h]⟩ hdup
  have hsat : ∃ x ∈ (findDuplicateArgs (s.setName h.source nm) ⟨[h]⟩).1,
      (fun kv : String × Nat => decide (kv.2 > 1)) x = true := by
    rw [hfde]
    refine ⟨kv0, hkv0, ?_⟩
    simp only [decide_eq_true_eq]
    omega
  have hisSome := List.find?_isSome.mpr hsat
  obtain ⟨kv, hfd⟩ := Option.isSome_iff_exists.mp hisSome
  have hp : kv.2 > 1 := by
    have := List.find?_some hfd
    simpa using this
  exact ⟨kv.1, kv.2, hp,
    composeKeyword_dup_fail s h hn kwargs nm kv hg hv ha htuple hdup2 hfd⟩

/-- Witness for `c9_duplicate_name_rejected`: the graph with two distinct
variables named `x`, keyword-composed with a key `z` that is not among the
duplicated names, fails with `DuplicateArgumentName` and only the head is
renamed. -/
theorem c9_duplicate_name_rejected_witness :
    ∃ dn c, c > 1 ∧
      composeKeyword dupNameStore dupNameSym [("z", MXSymbol.mk [⟨3, 0⟩])] "n" =
        (some (.duplicateArgumentName dn c), dupNameStore.setName 0 "n") :=
  c9_duplicate_name_rejected dupNameStore dupNameSym [("z", MXSymbol.mk [⟨3, 0⟩])]
    "n" ⟨0, 0⟩ ⟨none, some plusOp, "f", [⟨1, 0⟩, ⟨2, 0⟩]⟩ (by decide) (by decide)
    (by decide) (by decide) (by decide) (by decide)

/-! ## DFS stack-discipline lemmas -/

theorem pushAll_spec (ids stack visited : List Nat) :
    ∃ new, pushAll ids stack visited = (new ++ stack, new ++ visited, new) ∧
      new.Nodup ∧ (∀ x ∈ new, x ∈ ids ∧ x ∉ visited) ∧
      (∀ x ∈ ids, x ∈ new ∨ x ∈ visited) ∧ new.Sublist ids := by
  induction ids with
  | nil => exact ⟨[], rfl, by simp, by simp, by simp, by simp⟩
  | cons id rest ih =>
    obtain ⟨new, heq, hnd, hmem, hcov, hsub⟩ := ih
    by_cases hc : id ∈ new ++ visited
    · refine ⟨new, ?_, hnd, ?_, ?_, ?_⟩
      · simp only [pushAll, heq]
        rw [if_pos (by simpa using hc)]
      · exact fun x hx => ⟨List.mem_cons_of_mem _ (hmem x hx).1, (hmem x hx).2⟩
      · intro x hx
        rcases List.mem_cons.mp hx with rfl | hx'
        · rcases List.mem_append.mp hc with h1 | h1
          · exact Or.inl h1
          · exact Or.inr h1
        · exact hcov x hx'
      · exact List.Sublist.cons _ hsub
    · refine ⟨id :: new, ?_, ?_, ?_, ?_, List.Sublist.cons₂ _ hsub⟩
      · simp only [pushAll, heq]
        rw [if_neg (by simpa using hc)]
        simp
      · rw [List.nodup_cons]
        exact ⟨fun hmem' => hc (List.mem_append_left _ hmem'), hnd⟩
      · intro x hx
        rcases List.mem_cons.mp hx with rfl | hx'
        · exact ⟨List.mem_cons_self _ _, fun hv => hc (List.mem_append_right _ hv)⟩
        · exact ⟨List.mem_cons_of_mem _ (hmem x hx').1, (hmem x hx').2⟩
      · intro x hx
        rcases List.mem_cons.mp hx with rfl | hx'
        · exact Or.inl (List.mem_cons_self _ _)
        · rcases hcov x hx' with h1 | h1
          · exact Or.inl (List.mem_cons_of_mem _ h1)
          · exact Or.inr h1

theorem seedStack_nodup (ids : List Nat) :
    ∀ acc, acc.Nodup → (seedStack ids acc).Nodup := by
  induction ids with
  | nil => intro acc h; exact h
  | cons id rest ih =>
    intro acc h
    show (seedStack rest (if acc.contains id then acc else id :: acc)).Nodup
    by_cases hc : acc.contains id = true
    · rw [if_pos hc]
      exact ih acc h
    · rw [if_neg hc]
      apply ih
      rw [List.nodup_cons]
      exact ⟨by simpa using hc, h⟩

theorem seedStack_mem (ids : List Nat) :
    ∀ acc x, x ∈ seedStack ids acc ↔ x ∈ ids ∨ x ∈ acc := by
  induction ids with
  | nil => intro acc x; simp [seedStack]
  | cons id rest ih =>
    intro acc x
    show x ∈ seedStack rest (if acc.contains id then acc else id :: acc) ↔ _
    by_cases hc : acc.contains id = true
    · rw [if_pos hc]
      rw [ih]
      constructor
      · rintro (h1 | h1)
        · exact Or.inl (List.mem_cons_of_mem _ h1)
        · exact Or.inr h1
      · rintro (h1 | h1)
        · rcases List.mem_cons.mp h1 with rfl | h2
          · exact Or.inr (by simpa using hc)
          · exact Or.inl h2
        · exact Or.inr h1
    · rw [if_neg hc]
      rw [ih]
      constructor
      · rintro (h1 | h1)
        · exact Or.inl (List.mem_cons_of_mem _ h1)
        · rcases List.mem_cons.mp h1 with rfl | h2
          · exact Or.inl (List.mem_cons_self _ _)
          · exact Or.inr h2
      · rintro (h1 | h1)
        · rcases List.mem_cons.mp h1 with rfl | h2
          · exact Or.inr (List.mem_cons_self _ _)
          · exact Or.inl h2
        · exact Or.inr (List.mem_cons_of_mem _ h1)

theorem nodup_bounded_length_le (l : List Nat) (len : Nat) (hnd : l.Nodup)
    (hbound : ∀ x ∈ l, x < len) : l.length ≤ len := by
  have h1 : l.toFinset.card = l.length := List.toFinset_card_of_nodup hnd
  have h2 : l.toFinset ⊆ Finset.range len := by
    intro x hx
    rw [Finset.mem_range]
    exact hbound x (List.mem_toFinset.mp hx)
  have h3 := Finset.card_le_card h2
  rw [h1, Finset.card_range] at h3
  exact h3

theorem filter_sub_of_filter_eq (res' big sub : List Nat)
    (hfe : res'.filter (fun x => big.contains x) = big)
    (hsub : ∀ x ∈ sub, x ∈ big)
    (hbig_sub : big.filter (fun x => sub.contains x) = sub) :
    res'.filter (fun x => sub.contains x) = sub := by
  have h1 : res'.filter (fun x => sub.contains x) =
      (res'.filter (fun x => big.contains x)).filter (fun x => sub.contains x) := by
    rw [List.filter_filter]
    apply List.filter_congr
    intro x _
    by_cases hx : x ∈ sub
    · simp [hx, hsub x hx]
    · simp [hx]
  rw [h1, hfe, hbig_sub]

/-- The main invariant lemma for the DFS loop: starting from a state whose
stack is marked, duplicate-free and in range, the loop terminates within the
fuel bound and appends to the accumulator a duplicate-free list of pops that
contains the current stack in stack order, reaches only nodes reachable from
the stack, is closed under input edges, and whose per-pop discovery batches
are later visited in batch order. -/
theorem dfsLoop_master (s : Store) (hWF : s.WF) :
    ∀ (fuel : Nat) (stack visited acc : List Nat) (tr : List (Nat × List Nat)),
      stack.length + (s.nodes.length - visited.length) ≤ fuel →
      (acc ++ stack).Nodup →
      visited.Nodup →
      (∀ x ∈ visited, x ∈ acc ∨ x ∈ stack) →
      (∀ x ∈ acc, x ∈ visited) →
      (∀ x ∈ stack, x ∈ visited) →
      (∀ x ∈ visited, x < s.nodes.length) →
      ∃ res trNew,
        dfsLoop s fuel stack visited acc tr =
          (acc.reverse ++ res, tr.reverse ++ trNew) ∧
        res.Nodup ∧
        (∀ x ∈ res, x ∉ acc) ∧
        (∀ x ∈ res, x ∈ visited ∨ ∃ y ∈ stack,
          Relation.ReflTransGen (edgeRel s) y x) ∧
        (∀ x ∈ res, ∀ n, s.nodes[x]? = some n → ∀ e ∈ n.inputs,
          e.source ∈ acc ∨ e.source ∈ res) ∧
        res.filter (fun x => stack.contains x) = stack ∧
        trNew.map (fun p => p.1) = res ∧
        (∀ p ∈ trNew, ∃ n, s.nodes[p.1]? = some n ∧
          p.2.Sublist (n.inputs.map (fun e => e.source)) ∧
          (∀ x ∈ p.2, x ∉ visited) ∧
          res.filter (fun x => p.2.contains x) = p.2) := by
  intro fuel
  induction fuel with
  | zero =>
    intro stack visited acc tr hfuel hnd hndv hvis hacc hstk hrange
    have hstack : stack = [] := by
      cases stack with
      | nil => rfl
      | cons a b => exfalso; simp at hfuel
    subst hstack
    exact ⟨[], [], by simp [dfsLoop], by simp, by simp, by simp, by simp,
      by simp, by simp, by simp⟩
  | succ fuel ih =>
    intro stack visited acc tr hfuel hnd hndv hvis hacc hstk hrange
    cases stack with
    | nil =>
      exact ⟨[], [], by simp [dfsLoop_nil], by simp, by simp, by simp, by simp,
        by simp, by simp, by simp⟩
    | cons id rest =>
      have hidv : id ∈ visited := hstk id (List.mem_cons_self _ _)
      have hidlt : id < s.nodes.length := hrange id hidv
      obtain ⟨n, hn⟩ : ∃ n, s.nodes[id]? = some n := by
        rcases hx : s.nodes[id]? with _ | n
        · rw [List.getElem?_eq_none_iff] at hx
          omega
        · exact ⟨n, rfl⟩
      obtain ⟨new, hpa, hnewnd, hnewmem, hnewcov, hnewsub⟩ :=
        pushAll_spec (n.inputs.map (fun e => e.source)) rest visited
      have hnew_not_vis : ∀ x ∈ new, x ∉ visited := fun x hx => (hnewmem x hx).2
      have hnew_src : ∀ x ∈ new, x ∈ n.inputs.map (fun e => e.source) :=
        fun x hx => (hnewmem x hx).1
      have hnmem : n ∈ s.nodes := by
        obtain ⟨hl, hq⟩ := List.getElem?_eq_some.mp hn
        rw [← hq]
        exact List.getElem_mem hl
      have hnew_lt : ∀ x ∈ new, x < s.nodes.length := by
        intro x hx
        obtain ⟨e, he, hsrc⟩ := List.mem_map.mp (hnew_src x hx)
        rw [← hsrc]
        exact hWF n hnmem e he
      have hv1nd : (new ++ visited).Nodup := by
        rw [List.nodup_append]
        exact ⟨hnewnd, hndv, fun x hx hx' => hnew_not_vis x hx hx'⟩
      have hv1range : ∀ x ∈ new ++ visited, x < s.nodes.length := by
        intro x hx
        rcases List.mem_append.mp hx with h1 | h1
        exacts [hnew_lt x h1, hrange x h1]
      have hv1len : (new ++ visited).length ≤ s.nodes.length :=
        nodup_bounded_length_le _ _ hv1nd hv1range
      have hfuel1 : (new ++ rest).length +
          (s.nodes.length - (new ++ visited).length) ≤ fuel := by
        rw [List.length_append] at hv1len ⊢
        rw [List.length_append]
        simp only [List.length_cons] at hfuel
        omega
      -- decompose the old nodup fact
      rw [List.nodup_append] at hnd
      obtain ⟨hnd_acc, hnd_idrest, hdisj⟩ := hnd
      rw [List.nodup_cons] at hnd_idrest
      obtain ⟨hid_rest, hnd_rest⟩ := hnd_idrest
      have hid_acc : id ∉ acc := fun hia => hdisj hia (List.mem_cons_self _ _)
      have hnd1 : ((id :: acc) ++ (new ++ rest)).Nodup := by
        rw [List.nodup_append, List.nodup_cons, List.nodup_append]
        refine ⟨⟨hid_acc, hnd_acc⟩,
          ⟨hnewnd, hnd_rest, fun x hx hx' =>
            hnew_not_vis x hx (hstk x (List.mem_cons_of_mem _ hx'))⟩, ?_⟩
        intro x hx hx'
        rcases List.mem_cons.mp hx with rfl | hxacc
        · rcases List.mem_append.mp hx' with h1 | h1
          · exact hnew_not_vis x h1 hidv
          · exact hid_rest h1
        · rcases List.mem_append.mp hx' with h1 | h1
          · exact hnew_not_vis x h1 (hacc x hxacc)
          · exact hdisj hxacc (List.mem_cons_of_mem _ h1)
      have hvis1 : ∀ x ∈ new ++ visited, x ∈ (id :: acc) ∨ x ∈ (new ++ rest) := by
        intro x hx
        rcases List.mem_append.mp hx with h1 | h1
        · exact Or.inr (List.mem_append_left _ h1)
        · rcases hvis x h1 with h2 | h2
          · exact Or.inl (List.mem_cons_of_mem _ h2)
          · rcases List.mem_cons.mp h2 with rfl | h3
            · exact Or.inl (List.mem_cons_self _ _)
            · exact Or.inr (List.mem_append_right _ h3)
      have hacc1 : ∀ x ∈ id :: acc, x ∈ new ++ visited := by
        intro x hx
        rcases List.mem_cons.mp hx with rfl | h1
        · exact List.mem_append_right _ hidv
        · exact List.mem_append_right _ (hacc x h1)
      have hstk1 : ∀ x ∈ new ++ rest, x ∈ new ++ visited := by
        intro x hx
        rcases List.mem_append.mp hx with h1 | h1
        · exact List.mem_append_left _ h1
        · exact List.mem_append_right _ (hstk x (List.mem_cons_of_mem _ h1))
      obtain ⟨res', trNew', hres'eq, hres'nd, hres'acc, hres'sound, hres'clos,
          hres'filt, hres'map, hres'tr⟩ :=
        ih (new ++ rest) (new ++ visited) (id :: acc) ((id, new) :: tr)
          hfuel1 hnd1 hv1nd hvis1 hacc1 hstk1 hv1range
      have hstk1res : ∀ x ∈ new ++ rest, x ∈ res' := by
        intro x hx
        have hmemf : x ∈ res'.filter (fun y => (new ++ rest).contains y) := by
          rw [hres'filt]
          exact hx
        exact List.mem_of_mem_filter hmemf
      have hid_res' : id ∉ res' := fun hir =>
        hres'acc id hir (List.mem_cons_self _ _)
      have hrest_vis : ∀ x ∈ rest, x ∈ visited :=
        fun x hx => hstk x (List.mem_cons_of_mem _ hx)
      have hnewrest_filt_rest :
          (new ++ rest).filter (fun x => rest.contains x) = rest := by
        rw [List.filter_append]
        have h1 : new.filter (fun x => rest.contains x) = [] := by
          rw [List.filter_eq_nil_iff]
          intro a ha
          simp only [Bool.not_eq_true]
          have : a ∉ rest := fun har => hnew_not_vis a ha (hrest_vis a har)
          simpa using this
        have h2 : rest.filter (fun x => rest.contains x) = rest := by
          rw [List.filter_eq_self]
          intro a ha
          simpa using ha
        rw [h1, h2, List.nil_append]
      have hnewrest_filt_new :
          (new ++ rest).filter (fun x => new.contains x) = new := by
        rw [List.filter_append]
        have h1 : new.filter (fun x => new.contains x) = new := by
          rw [List.filter_eq_self]
          intro a ha
          simpa using ha
        have h2 : rest.filter (fun x => new.contains x) = [] := by
          rw [List.filter_eq_nil_iff]
          intro a ha
          simp only [Bool.not_eq_true]
          have : a ∉ new := fun han => hnew_not_vis a han (hrest_vis a ha)
          simpa using this
        rw [h1, h2, List.append_nil]
      have hres'_filt_rest : res'.filter (fun x => rest.contains x) = rest :=
        filter_sub_of_filter_eq res' (new ++ rest) rest hres'filt
          (fun x hx => List.mem_append_right _ hx) hnewrest_filt_rest
      have hres'_filt_new : res'.filter (fun x => new.contains x) = new :=
        filter_sub_of_filter_eq res' (new ++ rest) new hres'filt
          (fun x hx => List.mem_append_left _ hx) hnewrest_filt_new
      refine ⟨id :: res', (id, new) :: trNew', ?_, ?_, ?_, ?_, ?_, ?_, ?_, ?_⟩
      · rw [dfsLoop_cons_some s fuel id rest visited acc tr n hn, hpa]
        dsimp only
        rw [hres'eq]
        simp [List.reverse_cons, List.append_assoc]
      · rw [List.nodup_cons]
        exact ⟨hid_res', hres'nd⟩
      · intro x hx
        rcases List.mem_cons.mp hx with rfl | hx'
        · exact hid_acc
        · exact fun hxa => hres'acc x hx' (List.mem_cons_of_mem _ hxa)
      · intro x hx
        rcases List.mem_cons.mp hx with rfl | hx'
        · exact Or.inl hidv
        · rcases hres'sound x hx' with h1 | ⟨y, hy, hr⟩
          · rcases List.mem_append.mp h1 with h2 | h2
            · -- x was newly discovered from id: one edge step
              right
              refine ⟨id, List.mem_cons_self _ _, ?_⟩
              apply Relation.ReflTransGen.single
              obtain ⟨e, he, hsrc⟩ := List.mem_map.mp (hnew_src x h2)
              exact ⟨n, hn, e, he, hsrc⟩
            · exact Or.inl h2
          · rcases List.mem_append.mp hy with h2 | h2
            · right
              refine ⟨id, List.mem_cons_self _ _, ?_⟩
              have hedge : edgeRel s id y := by
                obtain ⟨e, he, hsrc⟩ := List.mem_map.mp (hnew_src y h2)
                exact ⟨n, hn, e, he, hsrc⟩
              exact Relation.ReflTransGen.trans
                (Relation.ReflTransGen.single hedge) hr
            · exact Or.inr ⟨y, List.mem_cons_of_mem _ h2, hr⟩
      · intro x hx n' hn' e he
        rcases List.mem_cons.mp hx with rfl | hx'
        · rw [hn] at hn'
          injection hn' with hnn
          have he2 : e ∈ n.inputs := by rw [hnn]; exact he
          have hsrc : e.source ∈ n.inputs.map (fun e => e.source) :=
            List.mem_map.mpr ⟨e, he2, rfl⟩
          rcases hnewcov e.source hsrc with h1 | h1
          · exact Or.inr (List.mem_cons_of_mem _
              (hstk1res _ (List.mem_append_left _ h1)))
          · rcases hvis e.source h1 with h2 | h2
            · exact Or.inl h2
            · rcases List.mem_cons.mp h2 with h3 | h3
              · exact Or.inr (h3 ▸ List.mem_cons_self _ _)
              · exact Or.inr (List.mem_cons_of_mem _
                  (hstk1res _ (List.mem_append_right _ h3)))
        · rcases hres'clos x hx' n' hn' e he with h1 | h1
          · rcases List.mem_cons.mp h1 with h2 | h2
            · exact Or.inr (h2 ▸ List.mem_cons_self _ _)
            · exact Or.inl h2
          · exact Or.inr (List.mem_cons_of_mem _ h1)
      · -- filter over the old stack id :: rest
        rw [List.filter_cons_of_pos (by simp)]
        have hcg : res'.filter (fun x => (id :: rest).contains x) =
            res'.filter (fun x => rest.contains x) := by
          apply List.filter_congr
          intro x hx
          have hne : x ≠ id := fun heq =>
            hres'acc x hx (heq ▸ List.mem_cons_self _ _)
          by_cases hxr : x ∈ rest
          · simp [hxr]
          · simp [hxr, hne]
        rw [hcg, hres'_filt_rest]
      · simp only [List.map_cons]
        rw [hres'map]
      · intro p hp
        rcases List.mem_cons.mp hp with rfl | hp'
        · refine ⟨n, hn, hnewsub, hnew_not_vis, ?_⟩
          have hidnew : id ∉ new := fun hin => hnew_not_vis id hin hidv
          rw [List.filter_cons_of_neg (by simpa using hidnew)]
          exact hres'_filt_new
        · obtain ⟨n', hp1, hp2, hp3, hp4⟩ := hres'tr p hp'
          refine ⟨n', hp1, hp2, ?_, ?_⟩
          · exact fun x hx hxv => hp3 x hx (List.mem_append_right _ hxv)
          · have hidp : id ∉ p.2 := fun hin =>
              hp3 id hin (List.mem_append_right _ hidv)
            rw [List.filter_cons_of_neg (by simpa using hidp)]
            exact hp4

/-! ## C5 -/

/-- C5: `DFSVisit` visits every node reachable from the heads along input
edges exactly once (the visitation order is duplicate-free and its members are
precisely the reachable node ids, even with shared diamond subgraphs); every
visited node's inputs are themselves visited; the visitation order lists each
node with its discovery batch; the ids newly discovered while scanning a
node's inputs are subsequently visited in an order that is a subsequence of
that node's left-to-right input order; and the order is deterministic — it
depends only on the store's traversal skeleton and the heads' source ids. -/
theorem c5_dfs_exactly_once (s : Store) (sym : MXSymbol)
    (hs : s.WF) (hsym : sym.WF s) :
    (dfs s sym).Nodup ∧
    (∀ id, id ∈ dfs s sym ↔ Reachable s sym id) ∧
    (∀ id n, id ∈ dfs s sym → s.nodes[id]? = some n →
      ∀ e ∈ n.inputs, e.source ∈ dfs s sym) ∧
    ((dfsFull s sym).2.map (fun p => p.1) = dfs s sym) ∧
    (∀ p ∈ (dfsFull s sym).2, ∃ n, s.nodes[p.1]? = some n ∧
      p.2.Sublist (n.inputs.map (fun e => e.source)) ∧
      (dfs s sym).filter (fun x => p.2.contains x) = p.2) ∧
    (∀ t : Store, ∀ symt : MXSymbol, storeSkeleton t = storeSkeleton s →
      symt.heads.map (fun h => h.source) = sym.heads.map (fun h => h.source) →
      dfs t symt = dfs s sym) := by
  have hids : ∀ x ∈ sym.heads.map (fun h => h.source), x < s.nodes.length := by
    intro x hx
    obtain ⟨h, hh, hsrc⟩ := List.mem_map.mp hx
    rw [← hsrc]
    exact hsym h hh
  have hseednd : (seedStack (sym.heads.map (fun h => h.source)) []).Nodup :=
    seedStack_nodup _ [] (by simp)
  have hseedmem : ∀ x, x ∈ seedStack (sym.heads.map (fun h => h.source)) [] ↔
      x ∈ sym.heads.map (fun h => h.source) := by
    intro x
    rw [seedStack_mem]
    simp
  have hseedrange : ∀ x ∈ seedStack (sym.heads.map (fun h => h.source)) [],
      x < s.nodes.length := fun x hx => hids x ((hseedmem x).mp hx)
  have hseedlen : (seedStack (sym.heads.map (fun h => h.source)) []).length ≤
      s.nodes.length := nodup_bounded_length_le _ _ hseednd hseedrange
  obtain ⟨res, trNew, heq, hnd, _hacc, hsound, hclos, hfilt, hmap, htr⟩ :=
    dfsLoop_master s hs s.nodes.length
      (seedStack (sym.heads.map (fun h => h.source)) [])
      (seedStack (sym.heads.map (fun h => h.source)) []) [] []
      (by omega) (by simpa using hseednd) hseednd (fun x hx => Or.inr hx)
      (by simp) (fun x hx => hx) hseedrange
  have hdfsfull : dfsFull s sym = (res, trNew) := by
    show dfsLoop s s.nodes.length
      (seedStack (sym.heads.map (fun h => h.source)) [])
      (seedStack (sym.heads.map (fun h => h.source)) []) [] [] = (res, trNew)
    rw [heq]
    simp
  have hdfs : dfs s sym = res := by
    unfold dfs
    rw [hdfsfull]
  have hseedres : ∀ x ∈ seedStack (sym.heads.map (fun h => h.source)) [],
      x ∈ res := by
    intro x hx
    have hmemf : x ∈ res.filter
        (fun y => (seedStack (sym.heads.map (fun h => h.source)) []).contains y) := by
      rw [hfilt]
      exact hx
    exact List.mem_of_mem_filter hmemf
  refine ⟨?_, ?_, ?_, ?_, ?_, ?_⟩
  · rw [hdfs]; exact hnd
  · intro id
    rw [hdfs]
    constructor
    · intro hid
      rcases hsound id hid with h1 | ⟨y, hy, hr⟩
      · obtain ⟨h, hh, hsrc⟩ := List.mem_map.mp ((hseedmem id).mp h1)
        exact ⟨h, hh, hsrc ▸ Relation.ReflTransGen.refl⟩
      · obtain ⟨h, hh, hsrc⟩ := List.mem_map.mp ((hseedmem y).mp hy)
        exact ⟨h, hh, hsrc ▸ hr⟩
    · rintro ⟨h, hh, hrtg⟩
      have hstart : h.source ∈ res :=
        hseedres _ ((hseedmem h.source).mpr (List.mem_map.mpr ⟨h, hh, rfl⟩))
      induction hrtg with
      | refl => exact hstart
      | tail hab hbc ihx =>
        obtain ⟨n, hbn, e, he, hsrc⟩ := hbc
        have := hclos _ ihx n hbn e he
        rcases this with h1 | h1
        · cases h1
        · exact hsrc ▸ h1
  · intro id n hid hn e he
    rw [hdfs] at hid ⊢
    rcases hclos id hid n hn e he with h1 | h1
    · cases h1
    · exact h1
  · rw [hdfsfull, hdfs]
    exact hmap
  · intro p hp
    rw [hdfsfull] at hp
    obtain ⟨n, h1, h2, _h3, h4⟩ := htr p hp
    rw [hdfs]
    exact ⟨n, h1, h2, h4⟩
  · intro t symt hsk hheads
    unfold dfs
    rw [dfsFull_skeleton t s symt sym hsk hheads]

/-- Witness for `c5_dfs_exactly_once` on the diamond graph (nodes 1 and 2
share node 3). -/
theorem c5_dfs_exactly_once_witness :
    (dfs diamondStore diamondSym).Nodup ∧
    (∀ id, id ∈ dfs diamondStore diamondSym ↔ Reachable diamondStore diamondSym id) ∧
    (∀ id n, id ∈ dfs diamondStore diamondSym → diamondStore.nodes[id]? = some n →
      ∀ e ∈ n.inputs, e.source ∈ dfs diamondStore diamondSym) ∧
    ((dfsFull diamondStore diamondSym).2.map (fun p => p.1) =
      dfs diamondStore diamondSym) ∧
    (∀ p ∈ (dfsFull diamondStore diamondSym).2, ∃ n,
      diamondStore.nodes[p.1]? = some n ∧
      p.2.Sublist (n.inputs.map (fun e => e.source)) ∧
      (dfs diamondStore diamondSym).filter (fun x => p.2.contains x) = p.2) ∧
    (∀ t : Store, ∀ symt : MXSymbol,
      storeSkeleton t = storeSkeleton diamondStore →
      symt.heads.map (fun h => h.source) =
        diamondSym.heads.map (fun h => h.source) →
      dfs t symt = dfs diamondStore diamondSym) :=
  c5_dfs_exactly_once diamondStore diamondSym
    (by
      show ∀ n ∈ diamondStore.nodes, ∀ e ∈ n.inputs,
        e.source < diamondStore.nodes.length
      decide)
    (by
      show ∀ h ∈ diamondSym.heads, h.source < diamondStore.nodes.length
      decide)

/-! ## Derived facts about the top-level traversal -/

/-- Summary facts about `dfs` used by the Copy development: no duplicates,
closure under input edges, definedness, membership of the head sources, and
range-boundedness. -/
theorem dfs_spec (s : Store) (sym : MXSymbol) (hs : s.WF) (hsym : sym.WF s) :
    (dfs s sym).Nodup ∧
    (∀ x ∈ dfs s sym, ∀ n, s.nodes[x]? = some n →
      ∀ e ∈ n.inputs, e.source ∈ dfs s sym) ∧
    (∀ x ∈ dfs s sym, ∃ n, s.nodes[x]? = some n) ∧
    (∀ h ∈ sym.heads, h.source ∈ dfs s sym) ∧
    (∀ x ∈ dfs s sym, x < s.nodes.length) := by
  have hids : ∀ x ∈ sym.heads.map (fun h => h.source), x < s.nodes.length := by
    intro x hx
    obtain ⟨h, hh, hsrc⟩ := List.mem_map.mp hx
    rw [← hsrc]
    exact hsym h hh
  have hseednd : (seedStack (sym.heads.map (fun h => h.source)) []).Nodup :=
    seedStack_nodup _ [] (by simp)
  have hseedmem : ∀ x, x ∈ seedStack (sym.heads.map (fun h => h.source)) [] ↔
      x ∈ sym.heads.map (fun h => h.source) := by
    intro x
    rw [seedStack_mem]
    simp
  have hseedrange : ∀ x ∈ seedStack (sym.heads.map (fun h => h.source)) [],
      x < s.nodes.length := fun x hx => hids x ((hseedmem x).mp hx)
  have hseedlen : (seedStack (sym.heads.map (fun h => h.source)) []).length ≤
      s.nodes.length := nodup_bounded_length_le _ _ hseednd hseedrange
  obtain ⟨res, trNew, heq, hnd, _hacc, _hsound, hclos, hfilt, hmap, htr⟩ :=
    dfsLoop_master s hs s.nodes.length
      (seedStack (sym.heads.map (fun h => h.source)) [])
      (seedStack (sym.heads.map (fun h => h.source)) []) [] []
      (by omega) (by simpa using hseednd) hseednd (fun x hx => Or.inr hx)
      (by simp) (fun x hx => hx) hseedrange
  have hdfs : dfs s sym = res := by
    show (dfsLoop s s.nodes.length
      (seedStack (sym.heads.map (fun h => h.source)) [])
      (seedStack (sym.heads.map (fun h => h.source)) []) [] []).1 = res
    rw [heq]
    simp
  have hsome : ∀ x ∈ res, ∃ n, s.nodes[x]? = some n := by
    intro x hx
    rw [← hmap] at hx
    obtain ⟨p, hp, hpx⟩ := List.mem_map.mp hx
    obtain ⟨n, hn, _⟩ := htr p hp
    exact ⟨n, hpx ▸ hn⟩
  refine ⟨?_, ?_, ?_, ?_, ?_⟩
  · rw [hdfs]; exact hnd
  · intro x hx n hn e he
    rw [hdfs] at hx ⊢
    rcases hclos x hx n hn e he with h1 | h1
    · cases h1
    · exact h1
  · rw [hdfs]; exact hsome
  · intro h hh
    rw [hdfs]
    have hseed : h.source ∈ seedStack (sym.heads.map (fun hd => hd.source)) [] :=
      (hseedmem h.source).mpr (List.mem_map.mpr ⟨h, hh, rfl⟩)
    have hmemf : h.source ∈ res.filter
        (fun y => (seedStack (sym.heads.map (fun hd => hd.source)) []).contains y) := by
      rw [hfilt]
      exact hseed
    exact List.mem_of_mem_filter hmemf
  · intro x hx
    rw [hdfs] at hx
    obtain ⟨n, hn⟩ := hsome x hx
    exact (List.getElem?_eq_some.mp hn).1

/-- The DFS loop's result does not depend on the fuel, as long as the fuel
covers the remaining work. -/
theorem dfsLoop_fuel (s : Store) (hWF : s.WF) :
    ∀ (fuel fuel' : Nat) (stack visited acc : List Nat)
      (tr : List (Nat × List Nat)),
      stack.length + (s.nodes.length - visited.length) ≤ fuel →
      stack.length + (s.nodes.length - visited.length) ≤ fuel' →
      visited.Nodup →
      (∀ x ∈ stack, x ∈ visited) →
      (∀ x ∈ visited, x < s.nodes.length) →
      dfsLoop s fuel stack visited acc tr = dfsLoop s fuel' stack visited acc tr := by
  intro fuel
  induction fuel with
  | zero =>
    intro fuel' stack visited acc tr hf hf' hndv hstk hrange
    have hstack : stack = [] := by
      cases stack with
      | nil => rfl
      | cons a b => exfalso; simp at hf
    subst hstack
    rw [dfsLoop_nil]
    cases fuel' with
    | zero => rfl
    | succ m => rw [dfsLoop_nil]
  | succ fuel ih =>
    intro fuel' stack visited acc tr hf hf' hndv hstk hrange
    cases stack with
    | nil =>
      rw [dfsLoop_nil]
      cases fuel' with
      | zero => rfl
      | succ m => rw [dfsLoop_nil]
    | cons id rest =>
      cases fuel' with
      | zero => exfalso; simp at hf'
      | succ m =>
        have hidv : id ∈ visited := hstk id (List.mem_cons_self _ _)
        have hidlt : id < s.nodes.length := hrange id hidv
        obtain ⟨n, hn⟩ : ∃ n, s.nodes[id]? = some n := by
          rcases hx : s.nodes[id]? with _ | n
          · rw [List.getElem?_eq_none_iff] at hx
            omega
          · exact ⟨n, rfl⟩
        obtain ⟨new, hpa, hnewnd, hnewmem, hnewcov, hnewsub⟩ :=
          pushAll_spec (n.inputs.map (fun e => e.source)) rest visited
        have hnew_not_vis : ∀ x ∈ new, x ∉ visited := fun x hx => (hnewmem x hx).2
        have hnmem : n ∈ s.nodes := by
          obtain ⟨hl, hq⟩ := List.getElem?_eq_some.mp hn
          rw [← hq]
          exact List.getElem_mem hl
        have hnew_lt : ∀ x ∈ new, x < s.nodes.length := by
          intro x hx
          obtain ⟨e, he, hsrc⟩ := List.mem_map.mp (hnewmem x hx).1
          rw [← hsrc]
          exact hWF n hnmem e he
        have hv1nd : (new ++ visited).Nodup := by
          rw [List.nodup_append]
          exact ⟨hnewnd, hndv, fun x hx hx' => hnew_not_vis x hx hx'⟩
        have hv1range : ∀ x ∈ new ++ visited, x < s.nodes.length := by
          intro x hx
          rcases List.mem_append.mp hx with h1 | h1
          exacts [hnew_lt x h1, hrange x h1]
        have hv1len : (new ++ visited).length ≤ s.nodes.length :=
          nodup_bounded_length_le _ _ hv1nd hv1range
        have hstk1 : ∀ x ∈ new ++ rest, x ∈ new ++ visited := by
          intro x hx
          rcases List.mem_append.mp hx with h1 | h1
          · exact List.mem_append_left _ h1
          · exact List.mem_append_right _ (hstk x (List.mem_cons_of_mem _ h1))
        have harith : (new ++ rest).length +
            (s.nodes.length - (new ++ visited).length) ≤ fuel := by
          rw [List.length_append] at hv1len ⊢
          rw [List.length_append]
          simp only [List.length_cons] at hf
          omega
        have harith' : (new ++ rest).length +
            (s.nodes.length - (new ++ visited).length) ≤ m := by
          rw [List.length_append] at hv1len ⊢
          rw [List.length_append]
          simp only [List.length_cons] at hf'
          omega
        rw [dfsLoop_cons_some s fuel id rest visited acc tr n hn,
          dfsLoop_cons_some s m id rest visited acc tr n hn, hpa]
        dsimp only
        exact ih m _ _ _ _ harith harith' hv1nd hstk1 hv1range

/-! ## Copy is a graph isomorphism on the reachable part -/

theorem map_contains_inj {f : Nat → Nat} {V : List Nat}
    (hinj : ∀ a ∈ V, ∀ b ∈ V, f a = f b → a = b)
    (l : List Nat) (x : Nat) (hx : x ∈ V) (hl : ∀ y ∈ l, y ∈ V) :
    ((l.map f).contains (f x)) = l.contains x := by
  by_cases hmem : x ∈ l
  · simp [hmem, List.mem_map.mpr ⟨x, hmem, rfl⟩]
  · have hnf : f x ∉ l.map f := by
      intro hfm
      obtain ⟨y, hy, hyx⟩ := List.mem_map.mp hfm
      exact hmem (hinj y (hl y hy) x hx hyx ▸ hy)
    simp [hmem, hnf]

theorem pushAll_map (f : Nat → Nat) (V : List Nat)
    (hinj : ∀ a ∈ V, ∀ b ∈ V, f a = f b → a = b) :
    ∀ (ids stack visited : List Nat),
      (∀ x ∈ ids, x ∈ V) → (∀ x ∈ visited, x ∈ V) →
      pushAll (ids.map f) (stack.map f) (visited.map f) =
        ((pushAll ids stack visited).1.map f,
         (pushAll ids stack visited).2.1.map f,
         (pushAll ids stack visited).2.2.map f) := by
  intro ids
  induction ids with
  | nil => intro stack visited _ _; rfl
  | cons id rest ih =>
    intro stack visited hids hvis
    obtain ⟨new, hpa, _, hnewmem, _, _⟩ := pushAll_spec rest stack visited
    have hrec := ih stack visited (fun x hx => hids x (List.mem_cons_of_mem _ hx)) hvis
    have hVnewvis : ∀ y ∈ new ++ visited, y ∈ V := by
      intro y hy
      rcases List.mem_append.mp hy with h1 | h1
      · exact hids y (List.mem_cons_of_mem _ ((hnewmem y h1).1))
      · exact hvis y h1
    have hcont : ((new ++ visited).map f).contains (f id) =
        (new ++ visited).contains id :=
      map_contains_inj hinj _ id (hids id (List.mem_cons_self _ _)) hVnewvis
    show pushAll (f id :: rest.map f) (stack.map f) (visited.map f) = _
    simp only [pushAll, hrec, hpa]
    rw [hcont]
    cases hc : (new ++ visited).contains id with
    | true => simp [List.map_append]
    | false => simp [List.map_append]
  
theorem seedStack_map (f : Nat → Nat) (V : List Nat)
    (hinj : ∀ a ∈ V, ∀ b ∈ V, f a = f b → a = b) :
    ∀ (ids acc : List Nat), (∀ x ∈ ids, x ∈ V) → (∀ x ∈ acc, x ∈ V) →
      seedStack (ids.map f) (acc.map f) = (seedStack ids acc).map f := by
  intro ids
  induction ids with
  | nil => intro acc _ _; rfl
  | cons id rest ih =>
    intro acc hids hacc
    show seedStack (rest.map f)
      (if (acc.map f).contains (f id) then acc.map f else f id :: acc.map f) =
      List.map f (seedStack rest (if acc.contains id then acc else id :: acc))
    rw [map_contains_inj hinj acc id (hids id (List.mem_cons_self _ _)) hacc]
    by_cases hc : acc.contains id = true
    · rw [if_pos hc, if_pos hc]
      exact ih acc (fun x hx => hids x (List.mem_cons_of_mem _ hx)) hacc
    · rw [if_neg hc, if_neg hc]
      have h2 : f id :: acc.map f = (id :: acc).map f := by simp
      rw [h2]
      apply ih
      · exact fun x hx => hids x (List.mem_cons_of_mem _ hx)
      · intro x hx
        rcases List.mem_cons.mp hx with rfl | h1
        · exact hids x (List.mem_cons_self _ _)
        · exact hacc x h1

theorem dfsLoop_map (s t : Store) (f : Nat → Nat) (V : List Nat)
    (hinj : ∀ a ∈ V, ∀ b ∈ V, f a = f b → a = b)
    (hclosed : ∀ x ∈ V, ∀ n, s.nodes[x]? = some n →
      ∀ e ∈ n.inputs, e.source ∈ V)
    (hnodes : ∀ x ∈ V, ∃ n n', s.nodes[x]? = some n ∧
      t.nodes[f x]? = some n' ∧
      n'.inputs.map (fun e => e.source) =
        (n.inputs.map (fun e => e.source)).map f) :
    ∀ (fuel : Nat) (stack visited acc : List Nat) (tr : List (Nat × List Nat)),
      (∀ x ∈ stack, x ∈ V) → (∀ x ∈ visited, x ∈ V) →
      dfsLoop t fuel (stack.map f) (visited.map f) (acc.map f)
          (tr.map (fun p => (f p.1, p.2.map f))) =
        ((dfsLoop s fuel stack visited acc tr).1.map f,
         (dfsLoop s fuel stack visited acc tr).2.map
           (fun p => (f p.1, p.2.map f))) := by
  intro fuel
  induction fuel with
  | zero =>
    intro stack visited acc tr _ _
    simp [dfsLoop, List.map_reverse]
  | succ fuel ih =>
    intro stack visited acc tr hstk hvis
    cases stack with
    | nil =>
      rw [List.map_nil, dfsLoop_nil, dfsLoop_nil]
      simp [List.map_reverse]
    | cons id rest =>
      obtain ⟨n, n', hn, hn', hsources⟩ := hnodes id (hstk id (List.mem_cons_self _ _))
      rw [List.map_cons,
        dfsLoop_cons_some t fuel (f id) (rest.map f) (visited.map f)
          (acc.map f) (tr.map (fun p => (f p.1, p.2.map f))) n' hn',
        dfsLoop_cons_some s fuel id rest visited acc tr n hn, hsources]
      have hidsV : ∀ x ∈ n.inputs.map (fun e => e.source), x ∈ V := by
        intro x hx
        obtain ⟨e, he, hsrc⟩ := List.mem_map.mp hx
        exact hsrc ▸ hclosed id (hstk id (List.mem_cons_self _ _)) n hn e he
      rw [pushAll_map f V hinj (n.inputs.map (fun e => e.source)) rest visited
        hidsV hvis]
      dsimp only
      obtain ⟨new, hpa, _, hnewmem, _, _⟩ :=
        pushAll_spec (n.inputs.map (fun e => e.source)) rest visited
      rw [hpa]
      dsimp only
      have hstk1 : ∀ x ∈ new ++ rest, x ∈ V := by
        intro x hx
        rcases List.mem_append.mp hx with h1 | h1
        · exact hidsV x ((hnewmem x h1).1)
        · exact hstk x (List.mem_cons_of_mem _ h1)
      have hvis1 : ∀ x ∈ new ++ visited, x ∈ V := by
        intro x hx
        rcases List.mem_append.mp hx with h1 | h1
        · exact hidsV x ((hnewmem x h1).1)
        · exact hvis x h1
      have := ih (new ++ rest) (new ++ visited) (id :: acc) ((id, new) :: tr)
        hstk1 hvis1
      simp only [List.map_cons, List.map_append] at this ⊢
      exact this

theorem copySymbol_length (s : Store) (sym : MXSymbol) :
    (copySymbol s sym).1.nodes.length = s.nodes.length + (dfs s sym).length := by
  show (s.nodes ++ _).length = _
  rw [List.length_append, List.length_map]

theorem copySymbol_get_old (s : Store) (sym : MXSymbol) (id : Nat)
    (hid : id < s.nodes.length) :
    (copySymbol s sym).1.nodes[id]? = s.nodes[id]? := by
  show (s.nodes ++ _)[id]? = s.nodes[id]?
  exact List.getElem?_append_left hid

theorem copySymbol_get (s : Store) (sym : MXSymbol) (x : Nat) (n : Node)
    (hx : x ∈ dfs s sym) (hn : s.nodes[x]? = some n) :
    (copySymbol s sym).1.nodes[copyMap s (dfs s sym) x]? =
      some (Node.mk none n.op n.name
        (n.inputs.map (fun e =>
          DataEntry.mk (copyMap s (dfs s sym) e.source) e.index))) := by
  have hidx : (dfs s sym).indexOf x < (dfs s sym).length :=
    List.indexOf_lt_length.mpr hx
  show (s.nodes ++ (dfs s sym).map (fun y =>
    match s.nodes[y]? with
    | some m =>
      Node.mk none m.op m.name
        (m.inputs.map (fun e => DataEntry.mk (copyMap s (dfs s sym) e.source) e.index))
    | none => default))[s.nodes.length + (dfs s sym).indexOf x]? = _
  rw [List.getElem?_append_right (by omega)]
  rw [show s.nodes.length + (dfs s sym).indexOf x - s.nodes.length =
    (dfs s sym).indexOf x from by omega]
  rw [List.getElem?_map]
  rw [List.getElem?_eq_getElem hidx, List.getElem_indexOf hidx]
  simp only [Option.map_some']
  rw [hn]

theorem copySymbol_heads (s : Store) (sym : MXSymbol) :
    (copySymbol s sym).2.heads =
      sym.heads.map (fun h => DataEntry.mk (copyMap s (dfs s sym) h.source) h.index) :=
  rfl

/-- The copy's traversal order is the image of the original's under the
old→new id map. -/
theorem dfs_copy (s : Store) (sym : MXSymbol) (hs : s.WF) (hsym : sym.WF s) :
    dfs (copySymbol s sym).1 (copySymbol s sym).2 =
      (dfs s sym).map (copyMap s (dfs s sym)) := by
  obtain ⟨hnd, hclos, hsome, hheads, hrange⟩ := dfs_spec s sym hs hsym
  have hinj : ∀ a ∈ dfs s sym, ∀ b ∈ dfs s sym,
      copyMap s (dfs s sym) a = copyMap s (dfs s sym) b → a = b := by
    intro a ha b hb hab
    unfold copyMap at hab
    have h2 : (dfs s sym).indexOf a = (dfs s sym).indexOf b := by omega
    exact (List.indexOf_inj ha hb).mp h2
  have hnodes : ∀ x ∈ dfs s sym, ∃ n n', s.nodes[x]? = some n ∧
      (copySymbol s sym).1.nodes[copyMap s (dfs s sym) x]? = some n' ∧
      n'.inputs.map (fun e => e.source) =
        (n.inputs.map (fun e => e.source)).map (copyMap s (dfs s sym)) := by
    intro x hx
    obtain ⟨n, hn⟩ := hsome x hx
    refine ⟨n, _, hn, copySymbol_get s sym x n hx hn, ?_⟩
    simp [List.map_map]
  have hheadssrc : (copySymbol s sym).2.heads.map (fun h => h.source) =
      (sym.heads.map (fun h => h.source)).map (copyMap s (dfs s sym)) := by
    rw [copySymbol_heads]
    simp [List.map_map]
  have hidsV : ∀ x ∈ sym.heads.map (fun h => h.source), x ∈ dfs s sym := by
    intro x hx
    obtain ⟨h, hh, hsrc⟩ := List.mem_map.mp hx
    exact hsrc ▸ hheads h hh
  have hseedV : ∀ x ∈ seedStack (sym.heads.map (fun h => h.source)) [],
      x ∈ dfs s sym := by
    intro x hx
    rw [seedStack_mem] at hx
    rcases hx with h1 | h1
    · exact hidsV x h1
    · cases h1
  have hseedrange : ∀ x ∈ seedStack (sym.heads.map (fun h => h.source)) [],
      x < s.nodes.length := fun x hx => hrange x (hseedV x hx)
  have hseednd : (seedStack (sym.heads.map (fun h => h.source)) []).Nodup :=
    seedStack_nodup _ [] (by simp)
  have hseedlen : (seedStack (sym.heads.map (fun h => h.source)) []).length ≤
      s.nodes.length := nodup_bounded_length_le _ _ hseednd hseedrange
  have hseedeq : seedStack ((sym.heads.map (fun h => h.source)).map
        (copyMap s (dfs s sym))) [] =
      (seedStack (sym.heads.map (fun h => h.source)) []).map
        (copyMap s (dfs s sym)) := by
    have h0 := seedStack_map (copyMap s (dfs s sym)) (dfs s sym) hinj
      (sym.heads.map (fun h => h.source)) [] hidsV (by simp)
    simpa using h0
  have hmapped := dfsLoop_map s (copySymbol s sym).1 (copyMap s (dfs s sym))
    (dfs s sym) hinj hclos hnodes (copySymbol s sym).1.nodes.length
    (seedStack (sym.heads.map (fun h => h.source)) [])
    (seedStack (sym.heads.map (fun h => h.source)) []) [] []
    hseedV hseedV
  simp only [List.map_nil] at hmapped
  have hfuel := dfsLoop_fuel s hs (copySymbol s sym).1.nodes.length s.nodes.length
    (seedStack (sym.heads.map (fun h => h.source)) [])
    (seedStack (sym.heads.map (fun h => h.source)) []) [] []
    (by rw [copySymbol_length]; omega) (by omega) hseednd (fun x hx => hx)
    hseedrange
  show (dfsFull (copySymbol s sym).1 (copySymbol s sym).2).1 = _
  unfold dfsFull
  rw [hheadssrc, hseedeq]
  show (dfsLoop (copySymbol s sym).1 (copySymbol s sym).1.nodes.length
    ((seedStack (sym.heads.map (fun h => h.source)) []).map (copyMap s (dfs s sym)))
    ((seedStack (sym.heads.map (fun h => h.source)) []).map (copyMap s (dfs s sym)))
    [] []).1 = (dfs s sym).map (copyMap s (dfs s sym))
  rw [hmapped]
  show ((dfsLoop s (copySymbol s sym).1.nodes.length
    (seedStack (sym.heads.map (fun h => h.source)) [])
    (seedStack (sym.heads.map (fun h => h.source)) []) [] []).1).map
      (copyMap s (dfs s sym)) = _
  rw [hfuel]
  rfl

/-! ## Compose touches only traversal-order nodes (toward C6) -/

theorem Store.setInput_get_ne (s : Store) (id i : Nat) (e : DataEntry)
    (id' : Nat) (h : id' ≠ id) :
    (s.setInput id i e).nodes[id']? = s.nodes[id']? :=
  Store.modifyNode_get_ne s id _ id' h

/-- Every plan entry appended by one positional edge step carries the node id
being scanned. -/
theorem cpFoldEdge_plan (s1 : Store) (args : List MXSymbol) (nid : Nat)
    (st : Nat × List (Nat × DataEntry) × List ((Nat × Nat) × Option DataEntry))
    (i : Nat) (e : DataEntry) (p : (Nat × Nat) × Option DataEntry)
    (hp : p ∈ (cpFoldEdge s1 args nid st i e).2.2) :
    p.1.1 = nid ∨ p ∈ st.2.2 := by
  have hsplit : ∀ (t : Option DataEntry), p ∈ st.2.2 ++ [((nid, i), t)] →
      p.1.1 = nid ∨ p ∈ st.2.2 := by
    intro t hmem
    rcases List.mem_append.mp hmem with h1 | h1
    · exact Or.inr h1
    · simp only [List.mem_singleton] at h1
      rw [h1]
      exact Or.inl rfl
  unfold cpFoldEdge at hp
  split at hp
  · exact Or.inr hp
  · split at hp
    · split at hp
      · exact hsplit _ hp
      · split at hp
        · exact hsplit _ hp
        · exact hsplit _ hp
    · exact Or.inr hp

/-- Every plan entry appended while scanning one node carries that node's id. -/
theorem cpFoldNode_plan (s1 : Store) (args : List MXSymbol)
    (st : Nat × List (Nat × DataEntry) × List ((Nat × Nat) × Option DataEntry))
    (nid : Nat) (p : (Nat × Nat) × Option DataEntry)
    (hp : p ∈ (cpFoldNode s1 args st nid).2.2) :
    p.1.1 = nid ∨ p ∈ st.2.2 := by
  unfold cpFoldNode at hp
  split at hp
  · exact Or.inr hp
  · next n _ =>
    have gen : ∀ (l : List Nat)
        (st0 : Nat × List (Nat × DataEntry) × List ((Nat × Nat) × Option DataEntry)),
        p ∈ (l.foldl (fun st2 i =>
          match n.inputs[i]? with
          | none => st2
          | some e => cpFoldEdge s1 args nid st2 i e) st0).2.2 →
        p.1.1 = nid ∨ p ∈ st0.2.2 := by
      intro l
      induction l with
      | nil => intro st0 h; exact Or.inr h
      | cons a as ih =>
        intro st0 h
        rw [List.foldl_cons] at h
        rcases ih _ h with h1 | h1
        · exact Or.inl h1
        · cases hia : n.inputs[a]? with
          | none =>
            simp only [hia] at h1
            exact Or.inr h1
          | some e =>
            simp only [hia] at h1
            exact cpFoldEdge_plan s1 args nid st0 a e p h1
    exact gen _ st hp

/-- Every node id mentioned in the positional replacement plan was produced by
the traversal. -/
theorem cpScan_plan (s1 : Store) (symc : MXSymbol) (args : List MXSymbol)
    (p : (Nat × Nat) × Option DataEntry)
    (hp : p ∈ (cpScan s1 symc args).2.2) :
    p.1.1 ∈ dfs s1 symc := by
  have gen : ∀ (l : List Nat)
      (st0 : Nat × List (Nat × DataEntry) × List ((Nat × Nat) × Option DataEntry)),
      p ∈ (l.foldl (cpFoldNode s1 args) st0).2.2 →
      p.1.1 ∈ l ∨ p ∈ st0.2.2 := by
    intro l
    induction l with
    | nil => intro st0 h; exact Or.inr h
    | cons a as ih =>
      intro st0 h
      rcases ih _ h with h1 | h1
      · exact Or.inl (List.mem_cons_of_mem a h1)
      · rcases cpFoldNode_plan s1 args st0 a p h1 with h2 | h2
        · rw [h2]; exact Or.inl (List.mem_cons_self a as)
        · exact Or.inr h2
  unfold cpScan at hp
  rcases gen _ _ hp with h1 | h1
  · exact h1
  · exact absurd h1 (List.not_mem_nil p)

/-- Applying a positional plan leaves every node outside the plan's ids
untouched. -/
theorem cpApply_get_ne (plan : List ((Nat × Nat) × Option DataEntry)) (id : Nat)
    (h : ∀ p ∈ plan, p.1.1 ≠ id) :
    ∀ s1 : Store, (cpApply s1 plan).nodes[id]? = s1.nodes[id]? := by
  induction plan with
  | nil => intro s1; rfl
  | cons p ps ih =>
    intro s1
    show (cpApply (s1.setInput p.1.1 p.1.2 (p.2.getD default)) ps).nodes[id]? = _
    rw [ih (fun q hq => h q (List.mem_cons_of_mem p hq))
      (s1.setInput p.1.1 p.1.2 (p.2.getD default))]
    exact Store.setInput_get_ne s1 p.1.1 p.1.2 (p.2.getD default) id
      (fun hEq => h p (List.mem_cons_self p ps) (by rw [hEq]))

/-- Keyword analogue of `cpFoldEdge_plan`. -/
theorem ckFoldEdge_plan (s1 : Store) (kwargs : List (String × MXSymbol)) (nid : Nat)
    (st : Nat × List Nat × List ((Nat × Nat) × DataEntry))
    (i : Nat) (e : DataEntry) (p : (Nat × Nat) × DataEntry)
    (hp : p ∈ (ckFoldEdge s1 kwargs nid st i e).2.2) :
    p.1.1 = nid ∨ p ∈ st.2.2 := by
  have hsplit : ∀ (t : DataEntry), p ∈ st.2.2 ++ [((nid, i), t)] →
      p.1.1 = nid ∨ p ∈ st.2.2 := by
    intro t hmem
    rcases List.mem_append.mp hmem with h1 | h1
    · exact Or.inr h1
    · simp only [List.mem_singleton] at h1
      rw [h1]
      exact Or.inl rfl
  unfold ckFoldEdge at hp
  split at hp
  · exact Or.inr hp
  · split at hp
    · split at hp
      · split at hp
        · exact hsplit _ hp
        · exact hsplit _ hp
      · exact Or.inr hp
    · exact Or.inr hp

/-- Keyword analogue of `cpFoldNode_plan`. -/
theorem ckFoldNode_plan (s1 : Store) (kwargs : List (String × MXSymbol))
    (st : Nat × List Nat × List ((Nat × Nat) × DataEntry))
    (nid : Nat) (p : (Nat × Nat) × DataEntry)
    (hp : p ∈ (ckFoldNode s1 kwargs st nid).2.2) :
    p.1.1 = nid ∨ p ∈ st.2.2 := by
  unfold ckFoldNode at hp
  split at hp
  · exact Or.inr hp
  · next n _ =>
    have gen : ∀ (l : List Nat)
        (st0 : Nat × List Nat × List ((Nat × Nat) × DataEntry)),
        p ∈ (l.foldl (fun st2 i =>
          match n.inputs[i]? with
          | none => st2
          | some e => ckFoldEdge s1 kwargs nid st2 i e) st0).2.2 →
        p.1.1 = nid ∨ p ∈ st0.2.2 := by
      intro l
      induction l with
      | nil => intro st0 h; exact Or.inr h
      | cons a as ih =>
        intro st0 h
        rw [List.foldl_cons] at h
        rcases ih _ h with h1 | h1
        · exact Or.inl h1
        · cases hia : n.inputs[a]? with
          | none =>
            simp only [hia] at h1
            exact Or.inr h1
          | some e =>
            simp only [hia] at h1
            exact ckFoldEdge_plan s1 kwargs nid st0 a e p h1
    exact gen _ st hp

/-- Keyword analogue of `cpScan_plan`. -/
theorem ckScan_plan (s1 : Store) (symc : MXSymbol)
    (kwargs : List (String × MXSymbol)) (p : (Nat × Nat) × DataEntry)
    (hp : p ∈ (ckScan s1 symc kwargs).2.2) :
    p.1.1 ∈ dfs s1 symc := by
  have gen : ∀ (l : List Nat)
      (st0 : Nat × List Nat × List ((Nat × Nat) × DataEntry)),
      p ∈ (l.foldl (ckFoldNode s1 kwargs) st0).2.2 →
      p.1.1 ∈ l ∨ p ∈ st0.2.2 := by
    intro l
    induction l with
    | nil => intro st0 h; exact Or.inr h
    | cons a as ih =>
      intro st0 h
      rcases ih _ h with h1 | h1
      · exact Or.inl (List.mem_cons_of_mem a h1)
      · rcases ckFoldNode_plan s1 kwargs st0 a p h1 with h2 | h2
        · rw [h2]; exact Or.inl (List.mem_cons_self a as)
        · exact Or.inr h2
  unfold ckScan at hp
  rcases gen _ _ hp with h1 | h1
  · exact h1
  · exact absurd h1 (List.not_mem_nil p)

/-- Keyword analogue of `cpApply_get_ne`. -/
theorem ckApply_get_ne (plan : List ((Nat × Nat) × DataEntry)) (id : Nat)
    (h : ∀ p ∈ plan, p.1.1 ≠ id) :
    ∀ s1 : Store, (ckApply s1 plan).nodes[id]? = s1.nodes[id]? := by
  induction plan with
  | nil => intro s1; rfl
  | cons p ps ih =>
    intro s1
    show (ckApply (s1.setInput p.1.1 p.1.2 p.2) ps).nodes[id]? = _
    rw [ih (fun q hq => h q (List.mem_cons_of_mem p hq))
      (s1.setInput p.1.1 p.1.2 p.2)]
    exact Store.setInput_get_ne s1 p.1.1 p.1.2 p.2 id
      (fun hEq => h p (List.mem_cons_self p ps) (by rw [hEq]))

theorem ckAtomicStore_get_ne (s1 : Store) (hs : Nat)
    (fill : List DataEntry × List Node × Nat) (id : Nat)
    (hne : id ≠ hs) (hlt : id < s1.nodes.length) :
    (ckAtomicStore s1 hs fill).nodes[id]? = s1.nodes[id]? := by
  show ((s1.setInputs hs fill.1).nodes ++ fill.2.1)[id]? = _
  rw [List.getElem?_append_left (by rw [Store.setInputs_length]; exact hlt)]
  exact Store.setInputs_get_ne s1 hs fill.1 id hne

/-- Positional `Compose` only ever writes the head node and nodes in its
traversal order: every other allocated node is bit-for-bit unchanged, whether
the call succeeds or fails. -/
theorem composePositional_untouched (s1 : Store) (symc : MXSymbol)
    (args : List MXSymbol) (nm : String) (id : Nat)
    (hhead : ∀ h ∈ symc.heads, h.source ≠ id)
    (hdfs : ∀ x ∈ dfs s1 symc, x ≠ id) :
    (composePositional s1 symc args nm).2.nodes[id]? = s1.nodes[id]? := by
  unfold composePositional
  split
  · next h heq =>
    have hh : id ≠ h.source :=
      Ne.symm (hhead h (by rw [heq]; exact List.mem_cons_self h []))
    split
    · rfl
    · next hn heqn =>
      split
      · rfl
      · split
        · exact Store.setName_get_ne s1 h.source nm id hh
        · split
          · split
            · exact Store.setName_get_ne s1 h.source nm id hh
            · split
              · exact Store.setName_get_ne s1 h.source nm id hh
              · rw [Store.setInputs_get_ne _ h.source _ id hh]
                exact Store.setName_get_ne s1 h.source nm id hh
          · split
            · exact Store.setName_get_ne s1 h.source nm id hh
            · have hplanne : ∀ p ∈ (cpScan (s1.setName h.source nm) symc args).2.2,
                  p.1.1 ≠ id := by
                intro p hp hEq
                have hmem := cpScan_plan (s1.setName h.source nm) symc args p hp
                rw [dfs_setName] at hmem
                exact hdfs p.1.1 hmem hEq
              rw [cpApply_get_ne (cpScan (s1.setName h.source nm) symc args).2.2
                id hplanne (s1.setName h.source nm)]
              exact Store.setName_get_ne s1 h.source nm id hh
  · rfl

/-- Keyword `Compose` likewise never rewrites an allocated node outside the
head and the traversal order (fresh placeholder nodes are appended past the
old length). -/
theorem composeKeyword_untouched (s1 : Store) (symc : MXSymbol)
    (kwargs : List (String × MXSymbol)) (nm : String) (id : Nat)
    (hhead : ∀ h ∈ symc.heads, h.source ≠ id)
    (hdfs : ∀ x ∈ dfs s1 symc, x ≠ id)
    (hlt : id < s1.nodes.length) :
    (composeKeyword s1 symc kwargs nm).2.nodes[id]? = s1.nodes[id]? := by
  unfold composeKeyword
  split
  · next h heq =>
    have hh : id ≠ h.source :=
      Ne.symm (hhead h (by rw [heq]; exact List.mem_cons_self h []))
    have hlt1 : id < (s1.setName h.source nm).nodes.length := by
      rw [Store.setName_length]; exact hlt
    split
    · rfl
    · next hn heqn =>
      split
      · rfl
      · split
        · exact Store.setName_get_ne s1 h.source nm id hh
        · split
          · split
            · exact Store.setName_get_ne s1 h.source nm id hh
            · split
              · rw [ckAtomicStore_get_ne (s1.setName h.source nm) h.source _ id hh hlt1]
                exact Store.setName_get_ne s1 h.source nm id hh
              · rw [Store.setInputs_get_ne _ h.source _ id hh]
                rw [ckAtomicStore_get_ne (s1.setName h.source nm) h.source _ id hh hlt1]
                exact Store.setName_get_ne s1 h.source nm id hh
          · split
            · split
              · exact Store.setName_get_ne s1 h.source nm id hh
              · exact Store.setName_get_ne s1 h.source nm id hh
            · split
              · have hplanne : ∀ p ∈ (ckScan (s1.setName h.source nm) symc kwargs).2.2,
                    p.1.1 ≠ id := by
                  intro p hp hEq
                  have hmem := ckScan_plan (s1.setName h.source nm) symc kwargs p hp
                  rw [dfs_setName] at hmem
                  exact hdfs p.1.1 hmem hEq
                rw [ckApply_get_ne (ckScan (s1.setName h.source nm) symc kwargs).2.2
                  id hplanne (s1.setName h.source nm)]
                exact Store.setName_get_ne s1 h.source nm id hh
              · exact Store.setName_get_ne s1 h.source nm id hh
  · rfl

/-! ## Copy preserves introspection (toward C6) -/

/-- The copy of an atomic head is atomic and vice versa. -/
theorem symIsAtomic_copy (s : Store) (sym : MXSymbol) (hs : s.WF) (hsym : sym.WF s) :
    symIsAtomic (copySymbol s sym).1 (copySymbol s sym).2 = symIsAtomic s sym := by
  obtain ⟨_, _, hsome, hheads, _⟩ := dfs_spec s sym hs hsym
  unfold symIsAtomic
  rw [copySymbol_heads]
  cases hhd : sym.heads with
  | nil => rfl
  | cons h t =>
    cases t with
    | cons h2 t2 => rfl
    | nil =>
      have hmem : h.source ∈ dfs s sym :=
        hheads h (by rw [hhd]; exact List.mem_cons_self h [])
      obtain ⟨n, hn⟩ := hsome h.source hmem
      have hcg := copySymbol_get s sym h.source n hmem hn
      simp only [List.map_cons, List.map_nil, hcg, hn]
      unfold Node.is_atomic
      cases hni : n.inputs <;> simp

theorem filterMap_congr_mem {α β : Type} (f g : α → Option β) :
    ∀ (l : List α), (∀ a ∈ l, f a = g a) → l.filterMap f = l.filterMap g := by
  intro l
  induction l with
  | nil => intro _; rfl
  | cons a as ih =>
    intro h
    rw [List.filterMap_cons, List.filterMap_cons, h a (List.mem_cons_self a as),
      ih (fun b hb => h b (List.mem_cons_of_mem a hb))]

/-- `ListArguments()` of the copy equals `ListArguments()` of the original,
provided no reachable node carries a backward-source link (which `Copy` would
drop, turning a gradient node into a variable-variant node). -/
theorem listArguments_copy (s : Store) (sym : MXSymbol) (hs : s.WF) (hsym : sym.WF s)
    (hback : ∀ x ∈ dfs s sym,
      (s.nodes[x]?.getD default).backward_source_node = none) :
    listArguments (copySymbol s sym).1 (copySymbol s sym).2 = listArguments s sym := by
  obtain ⟨_, _, hsome, hheads, _⟩ := dfs_spec s sym hs hsym
  have hdfsc := dfs_copy s sym hs hsym
  unfold listArguments
  rw [symIsAtomic_copy s sym hs hsym]
  cases hat : symIsAtomic s sym with
  | true =>
    simp only [if_true]
    cases hhd : sym.heads with
    | nil =>
      unfold symIsAtomic at hat
      rw [hhd] at hat
      cases hat
    | cons h t =>
      cases t with
      | cons h2 t2 =>
        unfold symIsAtomic at hat
        rw [hhd] at hat
        cases hat
      | nil =>
        have hmem : h.source ∈ dfs s sym :=
          hheads h (by rw [hhd]; exact List.mem_cons_self h [])
        obtain ⟨n, hn⟩ := hsome h.source hmem
        have hcg := copySymbol_get s sym h.source n hmem hn
        rw [copySymbol_heads, hhd]
        simp only [List.map_cons, List.map_nil, hcg, hn]
  | false =>
    simp only [if_false, Bool.false_eq_true]
    rw [hdfsc, List.filterMap_map]
    apply filterMap_congr_mem
    intro x hx
    obtain ⟨n, hn⟩ := hsome x hx
    have hcg := copySymbol_get s sym x n hx hn
    have hbk : n.backward_source_node = none := by
      have h1 := hback x hx
      rw [hn] at h1
      exact h1
    simp only [Function.comp_apply, hcg, hn]
    unfold Node.is_variable
    rw [hbk]

/-- The return name of a copied head equals that of the original head. -/
theorem returnNameOf_copy (s : Store) (sym : MXSymbol) (h : DataEntry) (n : Node)
    (hmem : h.source ∈ dfs s sym) (hn : s.nodes[h.source]? = some n)
    (hbk : n.backward_source_node = none) :
    returnNameOf (copySymbol s sym).1
      (DataEntry.mk (copyMap s (dfs s sym) h.source) h.index) =
    returnNameOf s h := by
  have hcg := copySymbol_get s sym h.source n hmem hn
  unfold returnNameOf
  simp [hcg, hn, Node.is_variable, hbk]

/-- `ListReturns()` of the copy equals `ListReturns()` of the original under
the same backward-free hypothesis. -/
theorem listReturns_copy (s : Store) (sym : MXSymbol) (hs : s.WF) (hsym : sym.WF s)
    (hback : ∀ x ∈ dfs s sym,
      (s.nodes[x]?.getD default).backward_source_node = none) :
    listReturns (copySymbol s sym).1 (copySymbol s sym).2 = listReturns s sym := by
  obtain ⟨_, _, hsome, hheads, _⟩ := dfs_spec s sym hs hsym
  unfold listReturns
  rw [copySymbol_heads]
  have gen : ∀ l : List DataEntry, (∀ h ∈ l, h.source ∈ dfs s sym) →
      listReturnsAux (copySymbol s sym).1
        (l.map (fun h => DataEntry.mk (copyMap s (dfs s sym) h.source) h.index)) =
      listReturnsAux s l := by
    intro l
    induction l with
    | nil => intro _; rfl
    | cons h t ih =>
      intro hsub
      have hmem : h.source ∈ dfs s sym := hsub h (List.mem_cons_self h t)
      obtain ⟨n, hn⟩ := hsome h.source hmem
      have hbk : n.backward_source_node = none := by
        have h1 := hback h.source hmem
        rw [hn] at h1
        exact h1
      simp only [List.map_cons, listReturnsAux]
      rw [returnNameOf_copy s sym h n hmem hn hbk,
        ih (fun h2 hh2 => hsub h2 (List.mem_cons_of_mem h hh2))]
  exact gen sym.heads (fun h hh => hheads h hh)

/-! ## C6, amended -/

/-- C6, amended: `Symbol::Copy` drops backward-source links (see the
counterexample), so the round-trip holds on Symbols none of whose reachable
nodes carries one.  For such a Symbol: the copy has identical
`ListArguments()` and `ListReturns()`; its heads are the original heads, in
order, re-pointed at the fresh ids; no node reachable from the copy is a node
reachable from the original (zero sharing); and composing the copy — either
overload, any arguments, whether it succeeds or fails — leaves every node
reachable from the original bit-for-bit unchanged. -/
theorem c6_copy_roundtrip (s : Store) (sym : MXSymbol) (hs : s.WF)
    (hsym : sym.WF s)
    (hback : ∀ x ∈ dfs s sym,
      (s.nodes[x]?.getD default).backward_source_node = none) :
    listArguments (copySymbol s sym).1 (copySymbol s sym).2 =
      listArguments s sym ∧
    listReturns (copySymbol s sym).1 (copySymbol s sym).2 = listReturns s sym ∧
    (copySymbol s sym).2.heads =
      sym.heads.map (fun h => DataEntry.mk (copyMap s (dfs s sym) h.source)
        h.index) ∧
    (∀ x ∈ dfs (copySymbol s sym).1 (copySymbol s sym).2, x ∉ dfs s sym) ∧
    (∀ (args : List MXSymbol) (nm : String), ∀ id ∈ dfs s sym,
      (composePositional (copySymbol s sym).1 (copySymbol s sym).2
        args nm).2.nodes[id]? = s.nodes[id]?) ∧
    (∀ (kwargs : List (String × MXSymbol)) (nm : String), ∀ id ∈ dfs s sym,
      (composeKeyword (copySymbol s sym).1 (copySymbol s sym).2
        kwargs nm).2.nodes[id]? = s.nodes[id]?) := by
  obtain ⟨_, _, _, _, hrange⟩ := dfs_spec s sym hs hsym
  have hdfsc := dfs_copy s sym hs hsym
  have hfresh : ∀ x ∈ dfs (copySymbol s sym).1 (copySymbol s sym).2,
      s.nodes.length ≤ x := by
    intro x hx
    rw [hdfsc] at hx
    obtain ⟨y, _, hxy⟩ := List.mem_map.mp hx
    rw [← hxy]
    unfold copyMap
    omega
  have hheadne : ∀ id ∈ dfs s sym, ∀ h ∈ (copySymbol s sym).2.heads,
      h.source ≠ id := by
    intro id hid h hh
    rw [copySymbol_heads] at hh
    obtain ⟨h0, _, hm⟩ := List.mem_map.mp hh
    have hlt := hrange id hid
    rw [← hm]
    show copyMap s (dfs s sym) h0.source ≠ id
    unfold copyMap
    omega
  have hdfsne : ∀ id ∈ dfs s sym, ∀ x ∈ dfs (copySymbol s sym).1
      (copySymbol s sym).2, x ≠ id := by
    intro id hid x hx
    have h1 := hfresh x hx
    have h2 := hrange id hid
    omega
  refine ⟨listArguments_copy s sym hs hsym hback,
    listReturns_copy s sym hs hsym hback, copySymbol_heads s sym, ?_, ?_, ?_⟩
  · intro x hx hx2
    have h1 := hfresh x hx
    have h2 := hrange x hx2
    omega
  · intro args nm id hid
    rw [composePositional_untouched (copySymbol s sym).1 (copySymbol s sym).2
      args nm id (hheadne id hid) (hdfsne id hid)]
    exact copySymbol_get_old s sym id (hrange id hid)
  · intro kwargs nm id hid
    rw [composeKeyword_untouched (copySymbol s sym).1 (copySymbol s sym).2
      kwargs nm id (hheadne id hid) (hdfsne id hid)
      (by rw [copySymbol_length]; have := hrange id hid; omega)]
    exact copySymbol_get_old s sym id (hrange id hid)

theorem c6_copy_roundtrip_witness :
    listArguments (copySymbol diamondStore diamondSym).1
      (copySymbol diamondStore diamondSym).2 =
      listArguments diamondStore diamondSym ∧
    listReturns (copySymbol diamondStore diamondSym).1
      (copySymbol diamondStore diamondSym).2 =
      listReturns diamondStore diamondSym ∧
    (copySymbol diamondStore diamondSym).2.heads =
      diamondSym.heads.map (fun h =>
        DataEntry.mk (copyMap diamondStore (dfs diamondStore diamondSym)
          h.source) h.index) ∧
    (∀ x ∈ dfs (copySymbol diamondStore diamondSym).1
        (copySymbol diamondStore diamondSym).2,
      x ∉ dfs diamondStore diamondSym) ∧
    (∀ (args : List MXSymbol) (nm : String),
      ∀ id ∈ dfs diamondStore diamondSym,
      (composePositional (copySymbol diamondStore diamondSym).1
        (copySymbol diamondStore diamondSym).2 args nm).2.nodes[id]? =
        diamondStore.nodes[id]?) ∧
    (∀ (kwargs : List (String × MXSymbol)) (nm : String),
      ∀ id ∈ dfs diamondStore diamondSym,
      (composeKeyword (copySymbol diamondStore diamondSym).1
        (copySymbol diamondStore diamondSym).2 kwargs nm).2.nodes[id]? =
        diamondStore.nodes[id]?) :=
  c6_copy_roundtrip diamondStore diamondSym
    (by
      show ∀ n ∈ diamondStore.nodes, ∀ e ∈ n.inputs,
        e.source < diamondStore.nodes.length
      decide)
    (by
      show ∀ h ∈ diamondSym.heads, h.source < diamondStore.nodes.length
      decide)
    (by decide)
